import Mathlib

/-!
Verification of the sprite-processing engine of `killkli/sprite_service`.

The definitions below are a shallow embedding of the Python source:

* `src/worker/sprite_processor.py` — region detector (`detect_bboxes_opencv`),
  merge engine (`merge_nearby_small_boxes`), grid segmenter
  (`_cluster_lines`, `detect_grid_lines`, `split_by_grid`), canvas
  normalizer (`_resize_and_center`), sprite cropping (`split_sprites`) and
  per-sprite resizing (`resize_sprites`).
* `src/worker/tasks.py` — the retry wrapper of `process_sprite`.

Machine integers are modelled as `ℕ`/`ℤ` (pixel coordinates and counts never
overflow 64-bit in this pipeline), Python floats as exact rationals `ℚ`
(every float comparison in the source compares quantities whose exact values
are far from the rounding error of IEEE doubles, so exact arithmetic is the
faithful semantics), Python `//` as `Nat` division or `Int.fdiv`, and Python
`int(·)` applied to a nonnegative float as `Nat` division of the exact value.
Raster contents, OpenCV primitives (connected components, Hough transform,
contours) and the neural models are upstream collaborators: their outputs
(component statistics, line segments, per-stage outcomes) are parameters of
the embedded functions, exactly at the boundary where the Python code
consumes them.
-/

namespace SpriteProc

/-! ### Canvas normalizer: `_resize_and_center` (sprite_processor.py 365-387)

`image.size = (orig_width, orig_height)`; if the longer side exceeds
`max_size` both dimensions are multiplied by `scale = max_size / longer_side`
and truncated with `int(...)`; the canvas is a fresh RGBA image of size
`(canvas_width, canvas_height)` and the sprite is pasted at
`((canvas_width - new_width) // 2, (canvas_height - new_height) // 2)`.
`int(orig * (max / longer))` on nonnegative values is `orig * max / longer`
in exact ℕ arithmetic; Python `//` on possibly-negative offsets is floor
division, `Int.fdiv`. -/

structure ResizeResult where
  newW : ℕ
  newH : ℕ
  canvasW : ℕ
  canvasH : ℕ
  xOff : ℤ
  yOff : ℤ
deriving Repr, DecidableEq

def resize_and_center (origW origH maxSize canvasW canvasH : ℕ) : ResizeResult :=
  let longer := max origW origH
  let newW := if longer > maxSize then origW * maxSize / longer else origW
  let newH := if longer > maxSize then origH * maxSize / longer else origH
  { newW := newW, newH := newH
    canvasW := canvasW, canvasH := canvasH
    xOff := Int.fdiv ((canvasW : ℤ) - (newW : ℤ)) 2
    yOff := Int.fdiv ((canvasH : ℤ) - (newH : ℤ)) 2 }

/-! ### Crop window of `split_sprites` (sprite_processor.py 286-296)

For each merged box `[x, y, w, h]` the crop rectangle is
`x_start = max(0, x - padding)`, `y_start = max(0, y - padding)`,
`x_end = min(width, x + w + padding)`, `y_end = min(height, y + h + padding)`.
Arithmetic on Python ints is ℤ. -/

structure CropWindow where
  xStart : ℤ
  yStart : ℤ
  xEnd : ℤ
  yEnd : ℤ
deriving Repr, DecidableEq

def cropWindow (x y w h padding W H : ℤ) : CropWindow :=
  { xStart := max 0 (x - padding)
    yStart := max 0 (y - padding)
    xEnd := min W (x + w + padding)
    yEnd := min H (y + h + padding) }

/-! ### Region detector: `detect_bboxes_opencv` (sprite_processor.py 102-141)

The OpenCV primitives (threshold, morphology, `connectedComponentsWithStats`)
produce a statistics table; row `0` is the background component and the loop
`for i in range(1, num_labels)` walks the remaining rows.  The embedding
takes that table (one `Comp` per row, background row included at the head)
and keeps exactly the rows the Python loop appends to `bboxes`:
`min_area < area < max_area` where `min_area = w*h*min_area_ratio`,
`max_area = w*h*max_area_ratio`, then
`aspect_ratio = bw / bh if bh > 0 else 0` and `0.05 < aspect_ratio < 20.0`.
The contour and centroid carried alongside each kept row do not affect
which rows are kept, so `Comp` carries only the consumed statistics. -/

structure Comp where
  x : ℕ
  y : ℕ
  w : ℕ
  h : ℕ
  area : ℕ
deriving Repr, DecidableEq

def compAspect (c : Comp) : ℚ := if c.h > 0 then (c.w : ℚ) / (c.h : ℚ) else 0

def keepComp (W H : ℕ) (minAreaRatio maxAreaRatio : ℚ) (c : Comp) : Bool :=
  decide ((W : ℚ) * (H : ℚ) * minAreaRatio < (c.area : ℚ)
      ∧ (c.area : ℚ) < (W : ℚ) * (H : ℚ) * maxAreaRatio
      ∧ (0.05 : ℚ) < compAspect c ∧ compAspect c < (20.0 : ℚ))

def detect_bboxes (W H : ℕ) (minAreaRatio maxAreaRatio : ℚ)
    (stats : List Comp) : List Comp :=
  (stats.drop 1).filter (keepComp W H minAreaRatio maxAreaRatio)

/-! ### Grid-line acquisition of `split_by_grid` (sprite_processor.py 577-605)

In auto-detect mode the code tries `detect_grid_lines`; when either returned
list has two or fewer entries it replaces the result with
`detect_grid_by_color_diff`.  An exception anywhere inside that `try` block
falls to the handler: with truthy `rows` and `cols` it synthesizes
`[int(i * dim / count) for i in range(count + 1)]`, otherwise it raises
`ValueError` (the configuration error).  In manual mode falsy `rows`/`cols`
raise, otherwise the same synthesis runs.  The two detector calls are
upstream of this decision logic, so their outcomes (a pair of line lists, or
an exception) are parameters.  Python truthiness of an optional int is
`some n` with `n ≠ 0`. -/

def truthy : Option ℕ → Bool
  | none => false
  | some n => n ≠ 0

def synthLines (dimension count : ℕ) : List ℕ :=
  (List.range (count + 1)).map (fun i => i * dimension / count)

/-- The `except Exception` handler of the auto-detect `try` block: with
truthy `rows` and `cols` synthesize evenly spaced lines, otherwise raise the
configuration error. -/
def gridExcHandler (rows cols : Option ℕ) (h w : ℕ) :
    Except String (List ℕ × List ℕ) :=
  if truthy rows ∧ truthy cols then
    Except.ok (synthLines h (rows.getD 0), synthLines w (cols.getD 0))
  else
    Except.error "auto-detect failed and rows/cols not given"

def gridLinesOf (autoDetect : Bool)
    (detectRes colorRes : Except String (List ℕ × List ℕ))
    (rows cols : Option ℕ) (h w : ℕ) : Except String (List ℕ × List ℕ) :=
  if autoDetect then
    match detectRes with
    | Except.error _ => gridExcHandler rows cols h w
    | Except.ok (hl, vl) =>
        if hl.length ≤ 2 ∨ vl.length ≤ 2 then
          match colorRes with
          | Except.error _ => gridExcHandler rows cols h w
          | Except.ok v => Except.ok v
        else Except.ok (hl, vl)
  else
    if truthy rows ∧ truthy cols then
      Except.ok (synthLines h (rows.getD 0), synthLines w (cols.getD 0))
    else
      Except.error "manual mode requires rows and cols"

/-! ### Task retry wrapper: `process_sprite` (tasks.py 35-90) and the
per-sprite loop of `resize_sprites` (sprite_processor.py 343-359)

`resize_sprites` wraps the body of its per-sprite loop in
`try/except Exception`, printing and continuing on failure, so a failing
sprite is dropped from the output and no exception escapes the loop.
The whole `processor.process(...)` plus `shutil.make_archive` body of the
Celery task is wrapped in `try/except Exception` whose handler calls
`self.retry(exc=e, countdown=10, max_retries=1)`.

Modelled from the spec: the Celery retry machinery itself (the scheduler
that re-executes a task after `self.retry`) is not part of this repository;
per the spec's failure semantics a task with `max_retries=1` is re-run once
after the fixed `countdown` delay, and a failure of the re-run is terminal
and surfaces the error message.  A pipeline run is abstracted as its three
stage outcomes: the split stage (detection + merge + crop, which may raise),
the per-sprite normalization outcomes, and the packaging stage. -/

structure RunBehavior (E S R P : Type) where
  splitRes : Except E (List S)
  normRes : S → Except E R
  packRes : List R → Except E P

def resize_sprites_outs {E S R : Type} (normRes : S → Except E R)
    (sprites : List S) : List R :=
  sprites.filterMap (fun s => (normRes s).toOption)

def processOnce {E S R P : Type} (b : RunBehavior E S R P) : Except E P := do
  let sprites ← b.splitRes
  let resized := resize_sprites_outs b.normRes sprites
  b.packRes resized

/-- Outcome of the Celery task: the terminal result plus the number of
pipeline attempts that were executed (1 = no retry, 2 = one retry after the
fixed 10-second countdown). -/
def process_sprite_task {E S R P : Type} (runs : ℕ → RunBehavior E S R P) :
    Except E P × ℕ :=
  match processOnce (runs 0) with
  | Except.ok p => (Except.ok p, 1)
  | Except.error _ =>
      match processOnce (runs 1) with
      | Except.ok p => (Except.ok p, 2)
      | Except.error e => (Except.error e, 2)

/-! ### Region merge engine: `merge_nearby_small_boxes` (sprite_processor.py 143-244)

A detected region carries its bounding box `[x, y, w, h]` and its foreground
pixel count `area`; the contour and centroid riding along in the Python dict
are only copied into the output for visualization and never inspected, so
they are omitted here.  `size_ratio_threshold` is a Python float, modelled
as an exact `ℚ`. -/

structure BBox where
  x : ℕ
  y : ℕ
  w : ℕ
  h : ℕ
deriving Repr, DecidableEq

structure Region where
  bbox : BBox
  area : ℕ
deriving Repr, DecidableEq

instance : Inhabited Region := ⟨⟨⟨0, 0, 0, 0⟩, 0⟩⟩

/-- `areas = sorted([b['area'] for b in bboxes])`. -/
def sortedAreas (bs : List Region) : List ℕ :=
  (bs.map (fun b => b.area)).insertionSort (· ≤ ·)

/-- `median_area = areas[len(areas) // 2]` (only evaluated on nonempty input,
where the index is in range; `getD` supplies an irrelevant default). -/
def median_area (bs : List Region) : ℕ :=
  (sortedAreas bs).getD (bs.length / 2) 0

/-- `threshold_area = median_area * size_ratio_threshold`. -/
def threshold_area (bs : List Region) (sizeRatio : ℚ) : ℚ :=
  (median_area bs : ℚ) * sizeRatio

/-- Membership test of `large_boxes = [b for b in bboxes if b['area'] >= threshold_area]`. -/
def isLargeBox (t : ℚ) (b : Region) : Bool := decide ((b.area : ℚ) ≥ t)

/-- Membership test of `small_boxes = [b for b in bboxes if b['area'] < threshold_area]`. -/
def isSmallBox (t : ℚ) (b : Region) : Bool := decide ((b.area : ℚ) < t)

def large_boxes (bs : List Region) (sizeRatio : ℚ) : List Region :=
  bs.filter (isLargeBox (threshold_area bs sizeRatio))

def small_boxes (bs : List Region) (sizeRatio : ℚ) : List Region :=
  bs.filter (isSmallBox (threshold_area bs sizeRatio))

/-- Modelled from the spec: the claim under test describes the even-length
median as "the lower-middle element" of the sorted area list; for an
even-length list that is the lower of the two middle entries, index
`n/2 - 1`, and for odd length the unique middle, uniformly `(n+1)/2 - 1`. -/
def lowerMiddleMedian (bs : List Region) : ℕ :=
  (sortedAreas bs).getD ((bs.length + 1) / 2 - 1) 0

/-- Box center `(x + w // 2, y + h // 2)` (coordinates are nonnegative, so
Python `//` is ℕ division). -/
def boxCenter (b : BBox) : ℕ × ℕ := (b.x + b.w / 2, b.y + b.h / 2)

/-- `np.sqrt((ax - bx)**2 + (ay - by)**2) < distance_threshold`, stated
squared: for the nonnegative threshold the source is called with,
`√s < t ↔ s < t²` over the reals. -/
def centersClose (p q : ℕ × ℕ) (distThr : ℕ) : Bool :=
  decide (((p.1 : ℤ) - (q.1 : ℤ)) ^ 2 + ((p.2 : ℤ) - (q.2 : ℤ)) ^ 2
    < (distThr : ℤ) ^ 2)

/-- The `bbox_to_idx = {id(b): i for i, b in enumerate(bboxes)}` table maps
each (physically distinct) dict back to its position in `bboxes`; the
embedding carries the position alongside the value directly. -/
def enumBoxes (bs : List Region) : List (ℕ × Region) := bs.enum

/-- Pass 1: `for large_box in large_boxes: for small_box in small_boxes:
union(large_idx, small_idx) if distance < distance_threshold`, as the list of
`union` calls in execution order. -/
def passA (bs : List Region) (t : ℚ) (distThr : ℕ) : List (ℕ × ℕ) :=
  ((enumBoxes bs).filter (fun ib => isLargeBox t ib.2)).flatMap (fun lb =>
    ((enumBoxes bs).filter (fun ib => isSmallBox t ib.2)).filterMap (fun sb =>
      if centersClose (boxCenter lb.2.bbox) (boxCenter sb.2.bbox) distThr
      then some (lb.1, sb.1) else none))

/-- Pass 2: `for i, box1 in enumerate(large_boxes): for box2 in
large_boxes[i+1:]: union(idx1, idx2) if distance < distance_threshold`. -/
def passBAux (distThr : ℕ) : List (ℕ × Region) → List (ℕ × ℕ)
  | [] => []
  | lb :: rest =>
      (rest.filterMap (fun lb2 =>
        if centersClose (boxCenter lb.2.bbox) (boxCenter lb2.2.bbox) distThr
        then some (lb.1, lb2.1) else none)) ++ passBAux distThr rest

def passB (bs : List Region) (t : ℚ) (distThr : ℕ) : List (ℕ × ℕ) :=
  passBAux distThr ((enumBoxes bs).filter (fun ib => isLargeBox t ib.2))

/-- All `union(x, y)` calls of `merge_nearby_small_boxes`, in order. -/
def unionPairs (bs : List Region) (t : ℚ) (distThr : ℕ) : List (ℕ × ℕ) :=
  passA bs t distThr ++ passB bs t distThr

/-! #### The union-find of lines 160-171

`parent = list(range(n))`; `find` follows parent links with path compression
(`parent[x] = find(parent[x]); return parent[x]`); `union(x, y)` computes
`px, py = find(x), find(y)` (in that order, each compressing) and if they
differ sets `parent[px] = py`.  The Python recursion terminates because the
parent forest is acyclic; the embedding makes the same recursion structural
with a fuel argument that the acyclicity invariant proves sufficient
(`parent.length + 1` exceeds the length of any root chain). -/

/-- One parent lookup; out-of-range indices act as their own parent, which
the in-range invariant keeps unreachable. -/
def pget (p : List ℕ) (x : ℕ) : ℕ := p.getD x x

def findC : ℕ → List ℕ → ℕ → ℕ × List ℕ
  | 0, p, x => (x, p)
  | fuel + 1, p, x =>
      if pget p x = x then (x, p)
      else
        let res := findC fuel p (pget p x)
        (res.1, res.2.set x res.1)

def unionC (p : List ℕ) (x y : ℕ) : List ℕ :=
  let fx := findC (p.length + 1) p x
  let fy := findC (fx.2.length + 1) fx.2 y
  if fx.1 = fy.1 then fy.2 else fy.2.set fx.1 fy.1

/-- The compression-free root chase (the value the source's `find` returns).
Once `fuel` exceeds the chain length the result is fuel-independent; `rootD`
uses `length + 1`, which the acyclicity invariant proves sufficient. -/
def rootFuel : ℕ → List ℕ → ℕ → ℕ
  | 0, _, x => x
  | fuel + 1, p, x => if pget p x = x then x else rootFuel fuel p (pget p x)

def rootD (p : List ℕ) (x : ℕ) : ℕ := rootFuel (p.length + 1) p x

def IsRootP (p : List ℕ) (x : ℕ) : Prop := pget p x = x

/-- `RchK p k x r`: following parent links from `x` reaches the root `r`
after exactly `k` steps. -/
inductive RchK (p : List ℕ) : ℕ → ℕ → ℕ → Prop
  | root (x : ℕ) : IsRootP p x → RchK p 0 x x
  | step (k x r : ℕ) : ¬ IsRootP p x → RchK p k (pget p x) r → RchK p (k + 1) x r

def Rch (p : List ℕ) (x r : ℕ) : Prop := ∃ k, RchK p k x r

/-- In-range parent entries point in range. -/
def rangeOK (p : List ℕ) : Prop := ∀ i, i < p.length → pget p i < p.length

/-- The union-find invariant: links stay in range and every chain reaches a
root (the parent structure is an acyclic forest). -/
def InvP (p : List ℕ) : Prop := rangeOK p ∧ ∀ x, ∃ r, Rch p x r

/-- The parent list after both passes:
`foldl` over the union calls in execution order. -/
def finalParent (bs : List Region) (t : ℚ) (distThr : ℕ) : List ℕ :=
  (unionPairs bs t distThr).foldl (fun p q => unionC p q.1 q.2)
    (List.range bs.length)

/-! #### Grouping (lines 210-244)

`groups = {}` is a Python dict, which preserves key insertion order;
`groups[root].append(bbox)` appends to the bucket of `find(i)` (creating it
on first use), still compressing the threaded parent list. -/

def addToGroups (gs : List (ℕ × List Region)) (r : ℕ) (b : Region) :
    List (ℕ × List Region) :=
  match gs with
  | [] => [(r, [b])]
  | (k, ms) :: rest =>
      if k = r then (k, ms ++ [b]) :: rest else (k, ms) :: addToGroups rest r b

def groupsGo (p : List ℕ) (i : ℕ) : List Region → List (ℕ × List Region) →
    List (ℕ × List Region)
  | [], gs => gs
  | b :: bs, gs =>
      let f := findC (p.length + 1) p i
      groupsGo f.2 (i + 1) bs (addToGroups gs f.1 b)

/-- The groups of `merge_nearby_small_boxes`, in dict order, each bucket in
input order. -/
def groupsOf (bs : List Region) (distThr : ℕ) (sizeRatio : ℚ) :
    List (ℕ × List Region) :=
  groupsGo (finalParent bs (threshold_area bs sizeRatio) distThr) 0 bs []

/-- Reference, state-free form of the grouping loop: bucket the regions by a
fixed root assignment (the threaded `find` calls of `groupsGo` return
exactly `rootD` of the final parent list and do not change any root). -/
def pureGroups (ρ : ℕ → ℕ) :
    ℕ → List Region → List (ℕ × List Region) → List (ℕ × List Region)
  | _, [], gs => gs
  | i, b :: bs, gs => pureGroups ρ (i + 1) bs (addToGroups gs (ρ i) b)

/-- First-match bucket lookup in the grouped association list. -/
def lookupGroup : List (ℕ × List Region) → ℕ → List Region
  | [], _ => []
  | (k, ms) :: rest, r => if k = r then ms else lookupGroup rest r

/-- The members a grouping run over indices `i, i+1, ...` assigns to root
`r`. -/
def segBucket (ρ : ℕ → ℕ) : ℕ → List Region → ℕ → List Region
  | _, [], _ => []
  | i, b :: rest, r => (if ρ i = r then [b] else []) ++ segBucket ρ (i + 1) rest r

/-- A permutation of `Fin n` extended to `ℕ` as the identity outside
`[0, n)`, used to compare a merge run on a permuted input list with the run
on the original list index-by-index. -/
def natPermAux (n : ℕ) (σf : Fin n → Fin n) (i : ℕ) : ℕ :=
  if h : i < n then (σf ⟨i, h⟩).val else i

/-- Python `min` / `max` of a nonempty list (the `[]` value is never used). -/
def listMin : List ℕ → ℕ
  | [] => 0
  | x :: xs => xs.foldl min x

def listMax : List ℕ → ℕ
  | [] => 0
  | x :: xs => xs.foldl max x

structure MergedBox where
  bbox : BBox
  area : ℕ
  merged_from : ℕ
deriving Repr, DecidableEq

/-- Lines 219-241: `all_x` collects `x` and `x + w` of every member (likewise
`all_y`), and the merged record is
`[min(all_x), min(all_y), max(all_x) - min(all_x), max(all_y) - min(all_y)]`
with `area = w * h` of the merged box and `merged_from = len(group_boxes)`. -/
def mergeGroup (g : List Region) : MergedBox :=
  let all_x := g.flatMap (fun b => [b.bbox.x, b.bbox.x + b.bbox.w])
  let all_y := g.flatMap (fun b => [b.bbox.y, b.bbox.y + b.bbox.h])
  let mx := listMin all_x
  let my := listMin all_y
  let mw := listMax all_x - mx
  let mh := listMax all_y - my
  { bbox := ⟨mx, my, mw, mh⟩, area := mw * mh, merged_from := g.length }

/-- `merge_nearby_small_boxes`: empty input short-circuits to `[]`
(line 147); otherwise classify, union, group, and merge each group. -/
def merge_nearby_small_boxes (bs : List Region) (distThr : ℕ)
    (sizeRatio : ℚ) : List MergedBox :=
  match bs with
  | [] => []
  | _ :: _ => (groupsOf bs distThr sizeRatio).map (fun g => mergeGroup g.2)

/-! ### Grid segmenter: `_cluster_lines` and `detect_grid_lines`
(sprite_processor.py 391-492)

`_cluster_lines` sorts the de-duplicated positions (`sorted(set(...))`),
then greedily extends the current cluster while the gap to the previously
kept position is `<= distance_threshold`, emitting `int(np.mean(cluster))`
at each break.  Positions are pixel coordinates (ℕ); `int(np.mean(...))` of
nonnegative integers is `sum / length` in ℕ.  The current cluster is kept in
reverse (newest first): Python appends and reads `current_cluster[-1]`, the
embedding conses and reads the head; the emitted mean is order-independent. -/

def sortedSet (positions : List ℕ) : List ℕ :=
  positions.toFinset.sort (· ≤ ·)

def natMean (xs : List ℕ) : ℕ := xs.sum / xs.length

def clusterGo (d : ℕ) : List ℕ → List ℕ → List ℕ
  | cur, [] => [natMean cur]
  | cur, pos :: rest =>
      if pos - cur.headD 0 ≤ d then clusterGo d (pos :: cur) rest
      else natMean cur :: clusterGo d [pos] rest

def cluster_lines (positions : List ℕ) (d : ℕ) : List ℕ :=
  match sortedSet positions with
  | [] => []
  | p :: ps => clusterGo d [p] ps

/-- One raw segment `(x1, y1, x2, y2)` returned by `cv2.HoughLinesP`. -/
structure Seg where
  x1 : ℕ
  y1 : ℕ
  x2 : ℕ
  y2 : ℕ
deriving Repr, DecidableEq

/-- Lines 457-466: keep `y_avg = (y1 + y2) // 2` of segments with
`abs(y2 - y1) < 20` and `edge_margin < y_avg < h - edge_margin`. -/
def hPositions (segs : List Seg) (edgeMargin h : ℕ) : List ℕ :=
  segs.filterMap (fun s =>
    if ((s.y2 : ℤ) - (s.y1 : ℤ)).natAbs < 20 then
      let yAvg := (s.y1 + s.y2) / 2
      if edgeMargin < yAvg ∧ yAvg < h - edgeMargin then some yAvg else none
    else none)

/-- Lines 468-478: same with `x_avg = (x1 + x2) // 2` and `abs(x2 - x1) < 20`. -/
def vPositions (segs : List Seg) (edgeMargin w : ℕ) : List ℕ :=
  segs.filterMap (fun s =>
    if ((s.x2 : ℤ) - (s.x1 : ℤ)).natAbs < 20 then
      let xAvg := (s.x1 + s.x2) / 2
      if edgeMargin < xAvg ∧ xAvg < w - edgeMargin then some xAvg else none
    else none)

/-- Lines 480-492: cluster each direction and add the borders
`[0] + ... + [h]` / `[0] + ... + [w]`.  The Canny/Hough stage is an OpenCV
primitive; the segment lists it returns are the inputs here. -/
def detect_grid_lines (hSegs vSegs : List Seg) (h w : ℕ)
    (edgeMargin clusterDistance : ℕ) : List ℕ × List ℕ :=
  (0 :: (cluster_lines (hPositions hSegs edgeMargin h) clusterDistance ++ [h]),
   0 :: (cluster_lines (vPositions vSegs edgeMargin w) clusterDistance ++ [w]))

/-! ### Concrete instances used by counterexamples and witnesses -/

/-- Four regions with pixel areas 1, 2, 3, 4 (an even-length area list whose
two middle entries differ). -/
def fourRegions : List Region :=
  [⟨⟨0, 0, 1, 1⟩, 1⟩, ⟨⟨0, 0, 1, 1⟩, 2⟩, ⟨⟨0, 0, 1, 1⟩, 3⟩, ⟨⟨0, 0, 1, 1⟩, 4⟩]

/-- A pipeline run whose split stage succeeds with one sprite, whose
normalization of that sprite raises, and whose packaging succeeds. -/
def normFailRun : RunBehavior ℕ ℕ ℕ ℕ :=
  { splitRes := Except.ok [7]
    normRes := fun _ => Except.error 3
    packRes := fun rs => Except.ok rs.length }

/-- A pipeline run that fails outright in the split stage. -/
def splitFailRun (e : ℕ) : RunBehavior ℕ ℕ ℕ ℕ :=
  { splitRes := Except.error e
    normRes := fun s => Except.ok s
    packRes := fun rs => Except.ok rs.length }

end SpriteProc

namespace SpriteProc

/-! ## Theorems -/

/-! ### C4 — canvas normalizer -/

/-- C4: for every input sprite and preset, a sprite whose longer side exceeds
`maxSide` is shrunk by `maxSide / longerSide` with integer truncation and the
resized longer side never exceeds `maxSide`; a sprite that fits is left at
its size (never upscaled); and the output canvas always measures exactly
`(canvasW, canvasH)` with the sprite at offsets
`((canvasW - w) // 2, (canvasH - h) // 2)`. -/
theorem resize_and_center_spec (origW origH maxSize canvasW canvasH : ℕ) :
    (max origW origH > maxSize →
      max (resize_and_center origW origH maxSize canvasW canvasH).newW
          (resize_and_center origW origH maxSize canvasW canvasH).newH ≤ maxSize ∧
      (resize_and_center origW origH maxSize canvasW canvasH).newW
        = origW * maxSize / max origW origH ∧
      (resize_and_center origW origH maxSize canvasW canvasH).newH
        = origH * maxSize / max origW origH) ∧
    (max origW origH ≤ maxSize →
      (resize_and_center origW origH maxSize canvasW canvasH).newW = origW ∧
      (resize_and_center origW origH maxSize canvasW canvasH).newH = origH) ∧
    (resize_and_center origW origH maxSize canvasW canvasH).canvasW = canvasW ∧
    (resize_and_center origW origH maxSize canvasW canvasH).canvasH = canvasH ∧
    (resize_and_center origW origH maxSize canvasW canvasH).xOff
      = Int.fdiv ((canvasW : ℤ)
          - ((resize_and_center origW origH maxSize canvasW canvasH).newW : ℤ)) 2 ∧
    (resize_and_center origW origH maxSize canvasW canvasH).yOff
      = Int.fdiv ((canvasH : ℤ)
          - ((resize_and_center origW origH maxSize canvasW canvasH).newH : ℤ)) 2 := by
  have hdiv : ∀ a : ℕ, a ≤ max origW origH →
      max origW origH > maxSize → a * maxSize / max origW origH ≤ maxSize := by
    intro a ha hgt
    have hpos : 0 < max origW origH := lt_of_le_of_lt (Nat.zero_le _) hgt
    calc a * maxSize / max origW origH
        ≤ max origW origH * maxSize / max origW origH :=
          Nat.div_le_div_right (Nat.mul_le_mul_right _ ha)
      _ = maxSize := Nat.mul_div_cancel_left _ hpos
  refine ⟨fun hgt => ?_, fun hle => ?_, rfl, rfl, ?_, ?_⟩
  · have hw : (resize_and_center origW origH maxSize canvasW canvasH).newW
        = origW * maxSize / max origW origH := by
      simp [resize_and_center, hgt]
    have hh : (resize_and_center origW origH maxSize canvasW canvasH).newH
        = origH * maxSize / max origW origH := by
      simp [resize_and_center, hgt]
    refine ⟨?_, hw, hh⟩
    rw [hw, hh]
    exact max_le (hdiv _ (le_max_left _ _) hgt) (hdiv _ (le_max_right _ _) hgt)
  · constructor <;> simp [resize_and_center, Nat.not_lt.mpr hle]
  · rfl
  · rfl

/-- Witness for C4 at a 300×100 sprite and the `large` preset
(260, 280, 280): the longer side 300 exceeds 260 and the resized sprite is
260×86 centered on a 280×280 canvas. -/
theorem resize_and_center_spec_witness :
    max 300 100 > 260 ∧
    max (resize_and_center 300 100 260 280 280).newW
        (resize_and_center 300 100 260 280 280).newH ≤ 260 ∧
    (resize_and_center 300 100 260 280 280).newW = 300 * 260 / max 300 100 ∧
    (resize_and_center 300 100 260 280 280).newH = 100 * 260 / max 300 100 := by
  refine ⟨by decide, (resize_and_center_spec 300 100 260 280 280).1 (by decide)⟩

/-! ### C10 — crop clamping in `split_sprites` -/

/-- C10: for every merged box lying inside the raster and every nonnegative
padding, the padded crop window is clamped into the raster:
`0 ≤ x_start ≤ x_end ≤ W` and `0 ≤ y_start ≤ y_end ≤ H`. -/
theorem cropWindow_in_bounds (x y w h padding W H : ℤ)
    (hx : 0 ≤ x) (hy : 0 ≤ y) (hw : 0 ≤ w) (hh : 0 ≤ h)
    (hxw : x + w ≤ W) (hyh : y + h ≤ H) (hpad : 0 ≤ padding) :
    0 ≤ (cropWindow x y w h padding W H).xStart ∧
    (cropWindow x y w h padding W H).xStart
      ≤ (cropWindow x y w h padding W H).xEnd ∧
    (cropWindow x y w h padding W H).xEnd ≤ W ∧
    0 ≤ (cropWindow x y w h padding W H).yStart ∧
    (cropWindow x y w h padding W H).yStart
      ≤ (cropWindow x y w h padding W H).yEnd ∧
    (cropWindow x y w h padding W H).yEnd ≤ H := by
  simp only [cropWindow, le_max_iff, max_le_iff, le_min_iff, min_le_iff]
  omega

/-- Witness for C10: the box `(10, 20, 30, 40)` with padding 5 inside a
100×200 raster. -/
theorem cropWindow_in_bounds_witness :
    0 ≤ (cropWindow 10 20 30 40 5 100 200).xStart ∧
    (cropWindow 10 20 30 40 5 100 200).xStart
      ≤ (cropWindow 10 20 30 40 5 100 200).xEnd ∧
    (cropWindow 10 20 30 40 5 100 200).xEnd ≤ 100 ∧
    0 ≤ (cropWindow 10 20 30 40 5 100 200).yStart ∧
    (cropWindow 10 20 30 40 5 100 200).yStart
      ≤ (cropWindow 10 20 30 40 5 100 200).yEnd ∧
    (cropWindow 10 20 30 40 5 100 200).yEnd ≤ 200 :=
  cropWindow_in_bounds 10 20 30 40 5 100 200 (by decide) (by decide) (by decide)
    (by decide) (by decide) (by decide) (by decide)

/-! ### C5 — region-detector gates -/

theorem compAspect_eq (c : Comp) : compAspect c = (c.w : ℚ) / (c.h : ℚ) := by
  unfold compAspect
  by_cases hc : c.h > 0
  · simp [hc]
  · have : c.h = 0 := Nat.eq_zero_of_not_pos hc
    simp [this]

/-- C5: a non-background component is kept by the detector iff both strict
gates hold: `W*H*minAreaRatio < pixelArea < W*H*maxAreaRatio` and
`0.05 < boxWidth/boxHeight < 20.0` (stats row 0 is the background component
and is never kept). -/
theorem detect_bboxes_mem (W H : ℕ) (minAreaRatio maxAreaRatio : ℚ)
    (stats : List Comp) (c : Comp) :
    c ∈ detect_bboxes W H minAreaRatio maxAreaRatio stats ↔
      c ∈ stats.drop 1 ∧
      ((W : ℚ) * (H : ℚ) * minAreaRatio < (c.area : ℚ) ∧
       (c.area : ℚ) < (W : ℚ) * (H : ℚ) * maxAreaRatio ∧
       (0.05 : ℚ) < (c.w : ℚ) / (c.h : ℚ) ∧
       (c.w : ℚ) / (c.h : ℚ) < (20.0 : ℚ)) := by
  unfold detect_bboxes keepComp
  rw [List.mem_filter]
  simp [compAspect_eq, and_assoc]

/-! ### C1 — grid-mode failure policy (corrected) -/

/-- C1 counterexample: with automatic detection returning only the two
border lines in each direction (no usable internal lines), the
color-discontinuity fallback likewise returning none, and no `rows`/`cols`
supplied, `split_by_grid` does NOT fail: it silently proceeds with the
trivial line sets, i.e. a 1×1 grid. -/
theorem gridLines_silent_1x1 :
    gridLinesOf true (Except.ok ([0, 100], [0, 100]))
        (Except.ok ([0, 100], [0, 100])) none none 100 100
      = Except.ok ([0, 100], [0, 100]) ∧
    ([0, 100] : List ℕ).length ≤ 2 := by
  exact ⟨rfl, by decide⟩

/-- C1 amended: in automatic mode the configuration error is raised exactly
when the detection `try` block raises (either detector throwing an
exception) and `rows`/`cols` are not both truthy; when the fallback returns
normally — even with no internal lines — its line sets are used as-is. -/
theorem gridLines_failure_policy (detectRes colorRes :
      Except String (List ℕ × List ℕ)) (rows cols : Option ℕ) (h w : ℕ) :
    (∀ e, detectRes = Except.error e → ¬(truthy rows ∧ truthy cols) →
      gridLinesOf true detectRes colorRes rows cols h w
        = Except.error "auto-detect failed and rows/cols not given") ∧
    (∀ hl vl e, detectRes = Except.ok (hl, vl) →
      (hl.length ≤ 2 ∨ vl.length ≤ 2) → colorRes = Except.error e →
      ¬(truthy rows ∧ truthy cols) →
      gridLinesOf true detectRes colorRes rows cols h w
        = Except.error "auto-detect failed and rows/cols not given") ∧
    (∀ hl vl v, detectRes = Except.ok (hl, vl) →
      (hl.length ≤ 2 ∨ vl.length ≤ 2) → colorRes = Except.ok v →
      gridLinesOf true detectRes colorRes rows cols h w = Except.ok v) ∧
    (∀ hl vl, detectRes = Except.ok (hl, vl) →
      ¬(hl.length ≤ 2 ∨ vl.length ≤ 2) →
      gridLinesOf true detectRes colorRes rows cols h w
        = Except.ok (hl, vl)) := by
  refine ⟨?_, ?_, ?_, ?_⟩
  · intro e hd hrc
    subst hd
    simp [gridLinesOf, gridExcHandler, hrc]
  · intro hl vl e hd hlen hc hrc
    subst hd; subst hc
    simp [gridLinesOf, gridExcHandler, hlen, hrc]
  · intro hl vl v hd hlen hc
    subst hd; subst hc
    simp [gridLinesOf, hlen]
  · intro hl vl hd hlen
    subst hd
    simp [gridLinesOf, hlen]

/-- Witness for the amended C1 at concrete inputs: a throwing detector with
no `rows`/`cols` yields the configuration error. -/
theorem gridLines_failure_policy_witness :
    gridLinesOf true (Except.error "imread failed")
        (Except.ok ([0, 9], [0, 9])) none none 9 9
      = Except.error "auto-detect failed and rows/cols not given" :=
  (gridLines_failure_policy (Except.error "imread failed")
      (Except.ok ([0, 9], [0, 9])) none none 9 9).1
    "imread failed" rfl (by decide)

/-! ### C8 — retry policy (corrected) -/

/-- C8 counterexample: a run whose only sprite fails canvas normalization is
not retried at all — the per-sprite `try/except` swallows the exception, the
sprite is dropped, and the task succeeds on attempt 1 (packaging an empty
set), contradicting the claim that a normalization exception triggers a
retry of the pipeline. -/
theorem process_sprite_norm_failure_no_retry :
    process_sprite_task (fun _ => normFailRun) = (Except.ok 0, 1) ∧
    normFailRun.normRes 7 = Except.error 3 := by
  exact ⟨rfl, rfl⟩

/-- C8 amended: an exception that propagates out of a pipeline attempt
(split/detection/merge/grid/crop or packaging) triggers exactly one delayed
retry of the whole run, and a second propagated failure is terminal,
surfacing that error; per-sprite canvas-normalization exceptions never
propagate — the sprite is dropped and the attempt continues. -/
theorem process_sprite_retry_policy {E S R P : Type}
    (runs : ℕ → RunBehavior E S R P) :
    (∀ p, processOnce (runs 0) = Except.ok p →
      process_sprite_task runs = (Except.ok p, 1)) ∧
    (∀ e p, processOnce (runs 0) = Except.error e →
      processOnce (runs 1) = Except.ok p →
      process_sprite_task runs = (Except.ok p, 2)) ∧
    (∀ e e2, processOnce (runs 0) = Except.error e →
      processOnce (runs 1) = Except.error e2 →
      process_sprite_task runs = (Except.error e2, 2)) ∧
    (∀ b : RunBehavior E S R P, ∀ sprites p,
      b.splitRes = Except.ok sprites →
      b.packRes (resize_sprites_outs b.normRes sprites) = Except.ok p →
      processOnce b = Except.ok p) := by
  refine ⟨?_, ?_, ?_, ?_⟩
  · intro p h1; simp [process_sprite_task, h1]
  · intro e p h1 h2; simp [process_sprite_task, h1, h2]
  · intro e e2 h1 h2; simp [process_sprite_task, h1, h2]
  · intro b sprites p hs hp
    simp only [processOnce, hs]
    exact hp

/-- Witness for the amended C8: a run failing in the split stage on both
attempts is retried once and terminally fails with the second error. -/
theorem process_sprite_retry_policy_witness :
    process_sprite_task (fun i => splitFailRun i) = (Except.error 1, 2) :=
  (process_sprite_retry_policy (fun i => splitFailRun i)).2.2.1 0 1 rfl rfl

/-! ### C3 — size-cutoff median (corrected) -/

/-- C3 counterexample: on four regions with areas `[1, 2, 3, 4]` the code's
median `areas[len(areas) // 2]` is `3`, the upper-middle element, not the
lower-middle element `2` the claim names. -/
theorem median_not_lower_middle :
    median_area fourRegions = 3 ∧ lowerMiddleMedian fourRegions = 2 ∧
    median_area fourRegions ≠ lowerMiddleMedian fourRegions := by
  refine ⟨by decide, by decide, by decide⟩

/-- C3 amended: for every nonempty even-length region list the size-cutoff
median is the element at index `n // 2` of the ascending-sorted pixel-area
list — the upper-middle element — the cutoff is that median times
`sizeRatioThreshold`, and a region is classified large iff its pixel area is
at or above the cutoff. -/
theorem median_and_classification (bs : List Region) (_hne : bs ≠ [])
    (_hev : Even bs.length) (sizeRatio : ℚ) :
    (∀ s : List ℕ, s.Perm (bs.map (fun b => b.area)) → s.Sorted (· ≤ ·) →
      median_area bs = s.getD (bs.length / 2) 0) ∧
    threshold_area bs sizeRatio = (median_area bs : ℚ) * sizeRatio ∧
    (∀ b, b ∈ large_boxes bs sizeRatio ↔
      b ∈ bs ∧ threshold_area bs sizeRatio ≤ (b.area : ℚ)) := by
  refine ⟨?_, rfl, ?_⟩
  · intro s hperm hsort
    have h1 : s = sortedAreas bs := by
      refine List.eq_of_perm_of_sorted ?_ hsort
        (List.sorted_insertionSort (· ≤ ·) _)
      exact hperm.trans (List.perm_insertionSort (· ≤ ·) _).symm
    rw [h1, median_area]
  · intro b
    rw [large_boxes, List.mem_filter, isLargeBox]
    simp [ge_iff_le]

/-- Witness for the amended C3 at `fourRegions` (length 4, areas 1..4):
the median is the entry at index 2 of the sorted list and region areas at
or above `3 * (2/5)` are exactly the large ones. -/
theorem median_and_classification_witness :
    fourRegions ≠ [] ∧ Even fourRegions.length ∧
    (∀ s : List ℕ, s.Perm (fourRegions.map (fun b => b.area)) →
      s.Sorted (· ≤ ·) →
      median_area fourRegions = s.getD (fourRegions.length / 2) 0) ∧
    (∀ b, b ∈ large_boxes fourRegions (2/5 : ℚ) ↔
      b ∈ fourRegions ∧ threshold_area fourRegions (2/5 : ℚ) ≤ (b.area : ℚ)) := by
  refine ⟨by decide, by decide, ?_, ?_⟩
  · exact (median_and_classification fourRegions (by decide) (by decide)
      (2/5 : ℚ)).1
  · exact (median_and_classification fourRegions (by decide) (by decide)
      (2/5 : ℚ)).2.2

/-! ### C2 — merge partitions the input, merged boxes are minimal enclosing
rectangles -/

theorem foldl_min_le_init (xs : List ℕ) (a : ℕ) : xs.foldl min a ≤ a := by
  induction xs generalizing a with
  | nil => exact le_refl a
  | cons y ys ih => exact le_trans (ih (min a y)) (min_le_left a y)

theorem foldl_min_le_mem (xs : List ℕ) (a x : ℕ) (hx : x ∈ xs) :
    xs.foldl min a ≤ x := by
  induction xs generalizing a with
  | nil => cases hx
  | cons y ys ih =>
      rcases List.mem_cons.mp hx with h | h
      · subst h
        exact le_trans (foldl_min_le_init ys (min a x)) (min_le_right a x)
      · exact ih (min a y) h

theorem le_foldl_min (xs : List ℕ) (a c : ℕ) (hc : c ≤ a)
    (h : ∀ x ∈ xs, c ≤ x) : c ≤ xs.foldl min a := by
  induction xs generalizing a with
  | nil => exact hc
  | cons y ys ih =>
      exact ih (min a y) (le_min hc (h y (List.mem_cons_self _ _)))
        (fun x hx => h x (List.mem_cons_of_mem y hx))

theorem foldl_min_choice (xs : List ℕ) (a : ℕ) :
    xs.foldl min a = a ∨ xs.foldl min a ∈ xs := by
  induction xs generalizing a with
  | nil => exact Or.inl rfl
  | cons y ys ih =>
      rcases ih (min a y) with h | h
      · rcases min_cases a y with ⟨hm, _⟩ | ⟨hm, _⟩
        · exact Or.inl (h.trans hm)
        · exact Or.inr (List.mem_cons.mpr (Or.inl (h.trans hm)))
      · exact Or.inr (List.mem_cons_of_mem y h)

theorem init_le_foldl_max (xs : List ℕ) (a : ℕ) : a ≤ xs.foldl max a := by
  induction xs generalizing a with
  | nil => exact le_refl a
  | cons y ys ih => exact le_trans (le_max_left a y) (ih (max a y))

theorem mem_le_foldl_max (xs : List ℕ) (a x : ℕ) (hx : x ∈ xs) :
    x ≤ xs.foldl max a := by
  induction xs generalizing a with
  | nil => cases hx
  | cons y ys ih =>
      rcases List.mem_cons.mp hx with h | h
      · subst h
        exact le_trans (le_max_right a x) (init_le_foldl_max ys (max a x))
      · exact ih (max a y) h

theorem foldl_max_le (xs : List ℕ) (a c : ℕ) (hc : a ≤ c)
    (h : ∀ x ∈ xs, x ≤ c) : xs.foldl max a ≤ c := by
  induction xs generalizing a with
  | nil => exact hc
  | cons y ys ih =>
      exact ih (max a y) (max_le hc (h y (List.mem_cons_self _ _)))
        (fun x hx => h x (List.mem_cons_of_mem y hx))

theorem foldl_max_choice (xs : List ℕ) (a : ℕ) :
    xs.foldl max a = a ∨ xs.foldl max a ∈ xs := by
  induction xs generalizing a with
  | nil => exact Or.inl rfl
  | cons y ys ih =>
      rcases ih (max a y) with h | h
      · rcases max_cases a y with ⟨hm, _⟩ | ⟨hm, _⟩
        · exact Or.inl (h.trans hm)
        · exact Or.inr (List.mem_cons.mpr (Or.inl (h.trans hm)))
      · exact Or.inr (List.mem_cons_of_mem y h)

theorem listMin_le (l : List ℕ) (x : ℕ) (hx : x ∈ l) : listMin l ≤ x := by
  cases l with
  | nil => cases hx
  | cons a xs =>
      rcases List.mem_cons.mp hx with h | h
      · subst h; exact foldl_min_le_init xs x
      · exact foldl_min_le_mem xs a x h

theorem le_listMin (l : List ℕ) (c : ℕ) (h : ∀ x ∈ l, c ≤ x) (hne : l ≠ []) :
    c ≤ listMin l := by
  cases l with
  | nil => exact absurd rfl hne
  | cons a xs =>
      exact le_foldl_min xs a c (h a (List.mem_cons_self _ _))
        (fun x hx => h x (List.mem_cons_of_mem a hx))

theorem listMin_mem (l : List ℕ) (hne : l ≠ []) : listMin l ∈ l := by
  cases l with
  | nil => exact absurd rfl hne
  | cons a xs =>
      rcases foldl_min_choice xs a with h | h
      · rw [listMin, h]; exact List.mem_cons_self _ _
      · exact List.mem_cons_of_mem a h

theorem le_listMax (l : List ℕ) (x : ℕ) (hx : x ∈ l) : x ≤ listMax l := by
  cases l with
  | nil => cases hx
  | cons a xs =>
      rcases List.mem_cons.mp hx with h | h
      · subst h; exact init_le_foldl_max xs x
      · exact mem_le_foldl_max xs a x h

theorem listMax_le (l : List ℕ) (c : ℕ) (h : ∀ x ∈ l, x ≤ c) (hne : l ≠ []) :
    listMax l ≤ c := by
  cases l with
  | nil => exact absurd rfl hne
  | cons a xs =>
      exact foldl_max_le xs a c (h a (List.mem_cons_self _ _))
        (fun x hx => h x (List.mem_cons_of_mem a hx))

theorem listMax_mem (l : List ℕ) (hne : l ≠ []) : listMax l ∈ l := by
  cases l with
  | nil => exact absurd rfl hne
  | cons a xs =>
      rcases foldl_max_choice xs a with h | h
      · rw [listMax, h]; exact List.mem_cons_self _ _
      · exact List.mem_cons_of_mem a h

theorem mem_pairList {g : List Region} {f e : Region → ℕ} {x : ℕ} :
    x ∈ g.flatMap (fun b => [f b, f b + e b]) ↔
      ∃ b ∈ g, x = f b ∨ x = f b + e b := by
  simp [List.mem_flatMap]

theorem pairList_ne_nil {g : List Region} (f e : Region → ℕ) (hne : g ≠ []) :
    g.flatMap (fun b => [f b, f b + e b]) ≠ [] := by
  obtain ⟨b, hb⟩ := List.exists_mem_of_ne_nil g hne
  exact List.ne_nil_of_mem (mem_pairList.mpr ⟨b, hb, Or.inl rfl⟩)

theorem listMin_pairList (g : List Region) (f e : Region → ℕ) (hne : g ≠ []) :
    listMin (g.flatMap (fun b => [f b, f b + e b])) = listMin (g.map f) := by
  have hmapne : g.map f ≠ [] := by
    simpa using hne
  apply le_antisymm
  · obtain ⟨x, hx, hfx⟩ := List.mem_map.mp (listMin_mem _ hmapne)
    rw [← hfx]
    exact listMin_le _ _ (mem_pairList.mpr ⟨x, hx, Or.inl rfl⟩)
  · obtain ⟨b, hb, hcase⟩ :=
      mem_pairList.mp (listMin_mem _ (pairList_ne_nil f e hne))
    have hfb : listMin (g.map f) ≤ f b :=
      listMin_le _ _ (List.mem_map.mpr ⟨b, hb, rfl⟩)
    rcases hcase with h | h <;> rw [h]
    · exact hfb
    · exact le_trans hfb (Nat.le_add_right _ _)

theorem listMax_pairList (g : List Region) (f e : Region → ℕ) (hne : g ≠ []) :
    listMax (g.flatMap (fun b => [f b, f b + e b]))
      = listMax (g.map (fun b => f b + e b)) := by
  have hmapne : g.map (fun b => f b + e b) ≠ [] := by
    simpa using hne
  apply le_antisymm
  · obtain ⟨b, hb, hcase⟩ :=
      mem_pairList.mp (listMax_mem _ (pairList_ne_nil f e hne))
    have hfb : f b + e b ≤ listMax (g.map (fun b => f b + e b)) :=
      le_listMax _ _ (List.mem_map.mpr ⟨b, hb, rfl⟩)
    rcases hcase with h | h <;> rw [h]
    · exact le_trans (Nat.le_add_right _ _) hfb
    · exact hfb
  · obtain ⟨x, hx, hfx⟩ := List.mem_map.mp (listMax_mem _ hmapne)
    rw [← hfx]
    exact le_listMax _ _ (mem_pairList.mpr ⟨x, hx, Or.inr rfl⟩)

/-- The merged record of a nonempty group: min/max coordinates and
`merged_from`. -/
theorem mergeGroup_spec (g : List Region) (hne : g ≠ []) :
    (mergeGroup g).bbox.x = listMin (g.map (fun b => b.bbox.x)) ∧
    (mergeGroup g).bbox.y = listMin (g.map (fun b => b.bbox.y)) ∧
    (mergeGroup g).bbox.x + (mergeGroup g).bbox.w
      = listMax (g.map (fun b => b.bbox.x + b.bbox.w)) ∧
    (mergeGroup g).bbox.y + (mergeGroup g).bbox.h
      = listMax (g.map (fun b => b.bbox.y + b.bbox.h)) ∧
    (mergeGroup g).merged_from = g.length := by
  have hx := listMin_pairList g (fun b => b.bbox.x) (fun b => b.bbox.w) hne
  have hy := listMin_pairList g (fun b => b.bbox.y) (fun b => b.bbox.h) hne
  have hx2 := listMax_pairList g (fun b => b.bbox.x) (fun b => b.bbox.w) hne
  have hy2 := listMax_pairList g (fun b => b.bbox.y) (fun b => b.bbox.h) hne
  have hnex : g.flatMap (fun b => [b.bbox.x, b.bbox.x + b.bbox.w]) ≠ [] :=
    pairList_ne_nil _ _ hne
  have hney : g.flatMap (fun b => [b.bbox.y, b.bbox.y + b.bbox.h]) ≠ [] :=
    pairList_ne_nil _ _ hne
  have hminmaxx :
      listMin (g.flatMap (fun b => [b.bbox.x, b.bbox.x + b.bbox.w]))
        ≤ listMax (g.flatMap (fun b => [b.bbox.x, b.bbox.x + b.bbox.w])) :=
    listMin_le _ _ (listMax_mem _ hnex)
  have hminmaxy :
      listMin (g.flatMap (fun b => [b.bbox.y, b.bbox.y + b.bbox.h]))
        ≤ listMax (g.flatMap (fun b => [b.bbox.y, b.bbox.y + b.bbox.h])) :=
    listMin_le _ _ (listMax_mem _ hney)
  refine ⟨hx, hy, ?_, ?_, rfl⟩
  · show listMin _ + (listMax _ - listMin _) = _
    rw [Nat.add_sub_cancel' hminmaxx, hx2]
  · show listMin _ + (listMax _ - listMin _) = _
    rw [Nat.add_sub_cancel' hminmaxy, hy2]

/-- Appending one region to its bucket only adds that region to the
collected members. -/
theorem addToGroups_flatMap (gs : List (ℕ × List Region)) (r : ℕ)
    (b : Region) :
    ((addToGroups gs r b).flatMap (fun g => g.2)).Perm
      (gs.flatMap (fun g => g.2) ++ [b]) := by
  induction gs with
  | nil => simp [addToGroups]
  | cons g rest ih =>
      obtain ⟨k, ms⟩ := g
      by_cases hk : k = r
      · simp only [addToGroups, if_pos hk, List.flatMap_cons]
        rw [List.perm_iff_count]
        intro a
        simp only [List.count_append]
        omega
      · simp only [addToGroups, if_neg hk, List.flatMap_cons]
        rw [List.perm_iff_count]
        intro a
        have hcnt := ih.count_eq a
        simp only [List.count_append] at hcnt ⊢
        omega

theorem addToGroups_ne_nil (gs : List (ℕ × List Region)) (r : ℕ) (b : Region)
    (h : ∀ g ∈ gs, g.2 ≠ []) : ∀ g ∈ addToGroups gs r b, g.2 ≠ [] := by
  induction gs with
  | nil =>
      intro g hg
      simp only [addToGroups, List.mem_singleton] at hg
      subst hg; simp
  | cons g0 rest ih =>
      obtain ⟨k, ms⟩ := g0
      intro g hg
      by_cases hk : k = r
      · simp only [addToGroups, if_pos hk, List.mem_cons] at hg
        rcases hg with hg | hg
        · subst hg; simp
        · exact h g (List.mem_cons_of_mem _ hg)
      · simp only [addToGroups, if_neg hk, List.mem_cons] at hg
        rcases hg with hg | hg
        · subst hg; exact h (k, ms) (List.mem_cons_self _ _)
        · exact ih (fun g' hg' => h g' (List.mem_cons_of_mem _ hg')) g hg

theorem groupsGo_flatMap (bs : List Region) :
    ∀ (p : List ℕ) (i : ℕ) (gs : List (ℕ × List Region)),
    ((groupsGo p i bs gs).flatMap (fun g => g.2)).Perm
      (gs.flatMap (fun g => g.2) ++ bs) := by
  induction bs with
  | nil => intro p i gs; simp [groupsGo]
  | cons b rest ih =>
      intro p i gs
      simp only [groupsGo]
      rw [List.perm_iff_count]
      intro a
      have h1 := (ih (findC (p.length + 1) p i).2 (i + 1)
        (addToGroups gs (findC (p.length + 1) p i).1 b)).count_eq a
      have h2 := (addToGroups_flatMap gs (findC (p.length + 1) p i).1 b).count_eq a
      simp only [List.count_append, List.count_cons, List.count_nil] at h1 h2 ⊢
      omega

theorem groupsGo_ne_nil (bs : List Region) :
    ∀ (p : List ℕ) (i : ℕ) (gs : List (ℕ × List Region)),
    (∀ g ∈ gs, g.2 ≠ []) → ∀ g ∈ groupsGo p i bs gs, g.2 ≠ [] := by
  induction bs with
  | nil => intro p i gs h; exact h
  | cons b rest ih =>
      intro p i gs h
      exact ih _ _ _ (addToGroups_ne_nil gs _ b h)

/-- C2: the merge operation partitions the input — the groups' members,
taken together, are a permutation of the input list (each region in exactly
one group, with multiplicity) — every group is nonempty, each group's merged
box is the minimal enclosing rectangle of its members' boxes (so it contains
every member box), `merged_from` is the group's cardinality, and the
function's output is exactly the per-group merged record list. -/
theorem merge_partition_minrect (bs : List Region) (hne : bs ≠ [])
    (distThr : ℕ) (sizeRatio : ℚ) :
    ((groupsOf bs distThr sizeRatio).flatMap (fun g => g.2)).Perm bs ∧
    (∀ g ∈ groupsOf bs distThr sizeRatio, g.2 ≠ []) ∧
    (∀ g ∈ groupsOf bs distThr sizeRatio,
      (mergeGroup g.2).bbox.x = listMin (g.2.map (fun b => b.bbox.x)) ∧
      (mergeGroup g.2).bbox.y = listMin (g.2.map (fun b => b.bbox.y)) ∧
      (mergeGroup g.2).bbox.x + (mergeGroup g.2).bbox.w
        = listMax (g.2.map (fun b => b.bbox.x + b.bbox.w)) ∧
      (mergeGroup g.2).bbox.y + (mergeGroup g.2).bbox.h
        = listMax (g.2.map (fun b => b.bbox.y + b.bbox.h)) ∧
      (mergeGroup g.2).merged_from = g.2.length ∧
      (∀ b ∈ g.2,
        (mergeGroup g.2).bbox.x ≤ b.bbox.x ∧
        (mergeGroup g.2).bbox.y ≤ b.bbox.y ∧
        b.bbox.x + b.bbox.w
          ≤ (mergeGroup g.2).bbox.x + (mergeGroup g.2).bbox.w ∧
        b.bbox.y + b.bbox.h
          ≤ (mergeGroup g.2).bbox.y + (mergeGroup g.2).bbox.h)) ∧
    merge_nearby_small_boxes bs distThr sizeRatio
      = (groupsOf bs distThr sizeRatio).map (fun g => mergeGroup g.2) := by
  have hperm :
      ((groupsOf bs distThr sizeRatio).flatMap (fun g => g.2)).Perm bs := by
    have := groupsGo_flatMap bs
      (finalParent bs (threshold_area bs sizeRatio) distThr) 0 []
    simpa [groupsOf] using this
  have hnonnil : ∀ g ∈ groupsOf bs distThr sizeRatio, g.2 ≠ [] := by
    have := groupsGo_ne_nil bs
      (finalParent bs (threshold_area bs sizeRatio) distThr) 0 []
      (by intro g hg; cases hg)
    simpa [groupsOf] using this
  refine ⟨hperm, hnonnil, ?_, ?_⟩
  · intro g hg
    have hgne := hnonnil g hg
    obtain ⟨h1, h2, h3, h4, h5⟩ := mergeGroup_spec g.2 hgne
    refine ⟨h1, h2, h3, h4, h5, ?_⟩
    intro b hb
    refine ⟨?_, ?_, ?_, ?_⟩
    · rw [h1]; exact listMin_le _ _ (List.mem_map.mpr ⟨b, hb, rfl⟩)
    · rw [h2]; exact listMin_le _ _ (List.mem_map.mpr ⟨b, hb, rfl⟩)
    · rw [h3]; exact le_listMax _ _ (List.mem_map.mpr ⟨b, hb, rfl⟩)
    · rw [h4]; exact le_listMax _ _ (List.mem_map.mpr ⟨b, hb, rfl⟩)
  · cases bs with
    | nil => exact absurd rfl hne
    | cons b rest => rfl

/-- Witness for C2 at the two-squares scenario of the spec (centers 30px
apart, threshold 80): the two regions land in the collected groups exactly
once each. -/
theorem merge_partition_minrect_witness :
    (([⟨⟨80, 80, 40, 40⟩, 1600⟩, ⟨⟨110, 80, 40, 40⟩, 1600⟩] : List Region)
        ≠ []) ∧
    ((groupsOf [⟨⟨80, 80, 40, 40⟩, 1600⟩, ⟨⟨110, 80, 40, 40⟩, 1600⟩]
        80 (2/5 : ℚ)).flatMap (fun g => g.2)).Perm
      [⟨⟨80, 80, 40, 40⟩, 1600⟩, ⟨⟨110, 80, 40, 40⟩, 1600⟩] := by
  refine ⟨by decide, ?_⟩
  exact (merge_partition_minrect
    [⟨⟨80, 80, 40, 40⟩, 1600⟩, ⟨⟨110, 80, 40, 40⟩, 1600⟩]
    (by decide) 80 (2/5 : ℚ)).1

/-! ### C6 — grid line lists are strictly increasing from 0 to the full
dimension -/

/-- The truncated mean of a nonempty list lies between any bounds enclosing
all its elements. -/
theorem natMean_bounds (xs : List ℕ) (lo hi : ℕ) (hne : xs ≠ [])
    (h : ∀ x ∈ xs, lo ≤ x ∧ x ≤ hi) :
    lo ≤ natMean xs ∧ natMean xs ≤ hi := by
  have hlen : 0 < xs.length := List.length_pos_of_ne_nil hne
  constructor
  · rw [natMean, Nat.le_div_iff_mul_le hlen]
    calc lo * xs.length = xs.length • lo := by
          rw [smul_eq_mul, Nat.mul_comm]
      _ ≤ xs.sum := List.card_nsmul_le_sum xs lo (fun x hx => (h x hx).1)
  · rw [natMean]
    have hsum : xs.sum ≤ hi * xs.length := by
      calc xs.sum ≤ xs.length • hi :=
            List.sum_le_card_nsmul xs hi (fun x hx => (h x hx).2)
        _ = hi * xs.length := by rw [smul_eq_mul, Nat.mul_comm]
    calc xs.sum / xs.length ≤ hi * xs.length / xs.length :=
          Nat.div_le_div_right hsum
      _ = hi := Nat.mul_div_cancel hi hlen

/-- Invariant of the greedy clustering loop: with the current cluster kept
newest-first (head = largest member) and the remaining positions strictly
increasing above it, the emitted means are strictly increasing and bounded
by any bounds enclosing all positions. -/
theorem clusterGo_spec (d : ℕ) :
    ∀ (rest : List ℕ), ∀ (cur : List ℕ) (lo hi : ℕ), cur ≠ [] →
    (∀ c ∈ cur, c ≤ cur.headD 0) →
    List.Pairwise (· < ·) rest →
    (∀ r ∈ rest, cur.headD 0 < r) →
    (∀ x ∈ cur, lo ≤ x ∧ x ≤ hi) →
    (∀ x ∈ rest, lo ≤ x ∧ x ≤ hi) →
    List.Chain' (· < ·) (clusterGo d cur rest) ∧
    (∀ m ∈ clusterGo d cur rest, lo ≤ m ∧ m ≤ hi) := by
  intro rest
  induction rest with
  | nil =>
      intro cur lo hi hcne _hmax _hch _hgt hcb _hrb
      refine ⟨List.chain'_singleton _, ?_⟩
      intro m hm
      rw [clusterGo, List.mem_singleton] at hm
      subst hm
      exact natMean_bounds cur lo hi hcne hcb
  | cons pos rest2 ih =>
      intro cur lo hi hcne hmax hch hgt hcb hrb
      have hposb := hrb pos (List.mem_cons_self _ _)
      have hch2 : List.Pairwise (· < ·) rest2 := (List.pairwise_cons.mp hch).2
      have hposlt : ∀ r ∈ rest2, pos < r := (List.pairwise_cons.mp hch).1
      rw [clusterGo]
      by_cases hgap : pos - cur.headD 0 ≤ d
      · rw [if_pos hgap]
        refine ih (pos :: cur) lo hi (by simp) ?_ hch2 ?_ ?_ ?_
        · intro c hc
          rcases List.mem_cons.mp hc with h | h
          · subst h; simp
          · have := hmax c h
            have hlt := hgt pos (List.mem_cons_self _ _)
            simp only [List.headD_cons]
            exact le_of_lt (lt_of_le_of_lt this hlt)
        · intro r hr
          simp only [List.headD_cons]
          exact hposlt r hr
        · intro x hx
          rcases List.mem_cons.mp hx with h | h
          · subst h; exact hposb
          · exact hcb x h
        · intro x hx
          exact hrb x (List.mem_cons_of_mem _ hx)
      · rw [if_neg hgap]
        have hmean := natMean_bounds cur lo hi hcne hcb
        have hmeanmax : natMean cur ≤ cur.headD 0 := by
          refine (natMean_bounds cur 0 (cur.headD 0) hcne ?_).2
          intro x hx
          exact ⟨Nat.zero_le x, hmax x hx⟩
        have hrec := ih [pos] pos hi (by simp) (by simp)
          hch2 (by simpa using hposlt)
          (by
            intro x hx
            rw [List.mem_singleton] at hx
            rw [hx]
            exact ⟨le_refl pos, hposb.2⟩)
          (by
            intro x hx
            exact ⟨le_of_lt (hposlt x hx), (hrb x (List.mem_cons_of_mem _ hx)).2⟩)
        refine ⟨?_, ?_⟩
        · rw [List.chain'_cons']
          refine ⟨?_, hrec.1⟩
          intro y hy
          have hymem := List.mem_of_mem_head? hy
          have hybd := hrec.2 y hymem
          have : natMean cur < pos :=
            lt_of_le_of_lt hmeanmax (hgt pos (List.mem_cons_self _ _))
          exact lt_of_lt_of_le this hybd.1
        · intro m hm
          rcases List.mem_cons.mp hm with h | h
          · subst h; exact hmean
          · have hb := hrec.2 m h
            exact ⟨le_trans hposb.1 hb.1, hb.2⟩

/-- The de-duplicated sorted position list is strictly sorted and keeps only
members of the input. -/
theorem sortedSet_sorted (positions : List ℕ) :
    List.Sorted (· < ·) (sortedSet positions) :=
  List.Sorted.lt_of_le (Finset.sort_sorted (· ≤ ·) _)
    (Finset.sort_nodup (· ≤ ·) _)

theorem sortedSet_mem (positions : List ℕ) (x : ℕ) :
    x ∈ sortedSet positions ↔ x ∈ positions := by
  rw [sortedSet, Finset.mem_sort, List.mem_toFinset]

/-- The clustered line list is strictly increasing, and its entries inherit
any bounds holding for all input positions. -/
theorem cluster_lines_spec (positions : List ℕ) (d lo hi : ℕ)
    (hb : ∀ p ∈ positions, lo ≤ p ∧ p ≤ hi) :
    List.Chain' (· < ·) (cluster_lines positions d) ∧
    (∀ m ∈ cluster_lines positions d, lo ≤ m ∧ m ≤ hi) := by
  have hbs : ∀ p ∈ sortedSet positions, lo ≤ p ∧ p ≤ hi := by
    intro p hp
    exact hb p ((sortedSet_mem positions p).mp hp)
  have hsorted := sortedSet_sorted positions
  rw [cluster_lines]
  cases hss : sortedSet positions with
  | nil => exact ⟨List.chain'_nil, by simp⟩
  | cons p ps =>
      rw [hss] at hsorted hbs
      have hpair := List.pairwise_cons.mp hsorted
      refine clusterGo_spec d ps [p] lo hi (by simp) (by simp) hpair.2 ?_ ?_ ?_
      · intro r hr
        simpa using hpair.1 r hr
      · intro x hx
        rw [List.mem_singleton] at hx
        subst hx
        exact hbs x (List.mem_cons_self _ _)
      · intro x hx
        exact hbs x (List.mem_cons_of_mem _ hx)

/-- Every position the horizontal extractor keeps lies strictly inside the
margins. -/
theorem hPositions_bounds (segs : List Seg) (em h : ℕ) :
    ∀ p ∈ hPositions segs em h, em + 1 ≤ p ∧ p ≤ h - em - 1 := by
  intro p hp
  rw [hPositions, List.mem_filterMap] at hp
  obtain ⟨s, _hs, heq⟩ := hp
  by_cases h20 : ((s.y2 : ℤ) - (s.y1 : ℤ)).natAbs < 20
  · rw [if_pos h20] at heq
    by_cases hmid : em < (s.y1 + s.y2) / 2 ∧ (s.y1 + s.y2) / 2 < h - em
    · rw [if_pos hmid] at heq
      cases heq
      omega
    · rw [if_neg hmid] at heq
      cases heq
  · rw [if_neg h20] at heq
    cases heq

theorem vPositions_bounds (segs : List Seg) (em w : ℕ) :
    ∀ p ∈ vPositions segs em w, em + 1 ≤ p ∧ p ≤ w - em - 1 := by
  intro p hp
  rw [vPositions, List.mem_filterMap] at hp
  obtain ⟨s, _hs, heq⟩ := hp
  by_cases h20 : ((s.x2 : ℤ) - (s.x1 : ℤ)).natAbs < 20
  · rw [if_pos h20] at heq
    by_cases hmid : em < (s.x1 + s.x2) / 2 ∧ (s.x1 + s.x2) / 2 < w - em
    · rw [if_pos hmid] at heq
      cases heq
      omega
    · rw [if_neg hmid] at heq
      cases heq
  · rw [if_neg h20] at heq
    cases heq

/-- Assembling `[0] + clusters + [dim]` into a strictly sorted list. -/
theorem sorted_zero_append (xs : List ℕ) (dim : ℕ) (hdim : 0 < dim)
    (hch : List.Chain' (· < ·) xs) (hbd : ∀ m ∈ xs, 0 < m ∧ m < dim) :
    List.Sorted (· < ·) (0 :: (xs ++ [dim])) := by
  rw [List.Sorted, List.pairwise_cons]
  constructor
  · intro a ha
    rcases List.mem_append.mp ha with h | h
    · exact (hbd a h).1
    · rw [List.mem_singleton] at h
      subst h
      exact hdim
  · rw [List.pairwise_append]
    refine ⟨List.chain'_iff_pairwise.mp hch, List.pairwise_singleton _ _, ?_⟩
    intro a ha b hb
    rw [List.mem_singleton] at hb
    subst hb
    exact (hbd a ha).2

/-- C6: both line lists returned by `detect_grid_lines` are strictly
increasing, start at exactly 0, and end at exactly the corresponding image
dimension, for every Hough segment list and parameters. -/
theorem detect_grid_lines_spec (hSegs vSegs : List Seg) (h w : ℕ)
    (edgeMargin clusterDistance : ℕ) (hh : 0 < h) (hw : 0 < w) :
    List.Sorted (· < ·)
      (detect_grid_lines hSegs vSegs h w edgeMargin clusterDistance).1 ∧
    (detect_grid_lines hSegs vSegs h w edgeMargin clusterDistance).1.head?
      = some 0 ∧
    (detect_grid_lines hSegs vSegs h w edgeMargin clusterDistance).1.getLast?
      = some h ∧
    List.Sorted (· < ·)
      (detect_grid_lines hSegs vSegs h w edgeMargin clusterDistance).2 ∧
    (detect_grid_lines hSegs vSegs h w edgeMargin clusterDistance).2.head?
      = some 0 ∧
    (detect_grid_lines hSegs vSegs h w edgeMargin clusterDistance).2.getLast?
      = some w := by
  have hcls := cluster_lines_spec (hPositions hSegs edgeMargin h)
    clusterDistance (edgeMargin + 1) (h - edgeMargin - 1)
    (hPositions_bounds hSegs edgeMargin h)
  have vcls := cluster_lines_spec (vPositions vSegs edgeMargin w)
    clusterDistance (edgeMargin + 1) (w - edgeMargin - 1)
    (vPositions_bounds vSegs edgeMargin w)
  have hbd : ∀ m ∈ cluster_lines (hPositions hSegs edgeMargin h)
      clusterDistance, 0 < m ∧ m < h := by
    intro m hm
    have := hcls.2 m hm
    omega
  have vbd : ∀ m ∈ cluster_lines (vPositions vSegs edgeMargin w)
      clusterDistance, 0 < m ∧ m < w := by
    intro m hm
    have := vcls.2 m hm
    omega
  refine ⟨sorted_zero_append _ h hh hcls.1 hbd, rfl, ?_,
    sorted_zero_append _ w hw vcls.1 vbd, rfl, ?_⟩
  · show (0 :: (cluster_lines (hPositions hSegs edgeMargin h)
        clusterDistance ++ [h])).getLast? = some h
    rw [← List.cons_append, List.getLast?_concat]
  · show (0 :: (cluster_lines (vPositions vSegs edgeMargin w)
        clusterDistance ++ [w])).getLast? = some w
    rw [← List.cons_append, List.getLast?_concat]

/-- Witness for C6 at a 100×100 raster with one near-horizontal Hough
segment at height 50 and default margins. -/
theorem detect_grid_lines_spec_witness :
    List.Sorted (· < ·)
      (detect_grid_lines [⟨10, 50, 200, 50⟩] [] 100 100 10 20).1 ∧
    (detect_grid_lines [⟨10, 50, 200, 50⟩] [] 100 100 10 20).1.head?
      = some 0 ∧
    (detect_grid_lines [⟨10, 50, 200, 50⟩] [] 100 100 10 20).1.getLast?
      = some 100 :=
  have hspec := detect_grid_lines_spec [⟨10, 50, 200, 50⟩] [] 100 100 10 20
    (by decide) (by decide)
  ⟨hspec.1, hspec.2.1, hspec.2.2.1⟩

/-! ### Union-find theory

The source's `find`/`union` mutate the parent list; these lemmas show that
under the acyclicity invariant `InvP`, `findC` returns the compression-free
root `rootD` and neither path compression nor a union changes any root
except as the union dictates. -/

theorem oob_isRoot (p : List ℕ) (x : ℕ) (h : p.length ≤ x) : IsRootP p x := by
  show pget p x = x
  rw [pget, List.getD_eq_getElem?_getD, List.getElem?_eq_none h]
  rfl

theorem lt_of_not_isRoot (p : List ℕ) (x : ℕ) (h : ¬ IsRootP p x) :
    x < p.length := by
  by_contra hx
  exact h (oob_isRoot p x (Nat.le_of_not_lt hx))

theorem pget_set (p : List ℕ) (a b i : ℕ) :
    pget (p.set a b) i = if a = i ∧ a < p.length then b else pget p i := by
  by_cases hc : a = i ∧ a < p.length
  · rw [if_pos hc]
    obtain ⟨hai, hlen⟩ := hc
    subst hai
    rw [pget, List.getD_eq_getElem?_getD, List.getElem?_set, if_pos rfl,
      if_pos hlen]
    rfl
  · rw [if_neg hc]
    by_cases hai : a = i
    · subst hai
      have hlen : ¬ a < p.length := fun hl => hc ⟨rfl, hl⟩
      rw [pget, List.getD_eq_getElem?_getD, List.getElem?_set, if_pos rfl,
        if_neg hlen]
      show (none : Option ℕ).getD a = pget p a
      rw [show pget p a = a from oob_isRoot p a (Nat.le_of_not_lt hlen)]
      rfl
    · rw [pget, List.getD_eq_getElem?_getD, List.getElem?_set, if_neg hai,
        pget, List.getD_eq_getElem?_getD]

theorem pget_set_self (p : List ℕ) (a b : ℕ) (ha : a < p.length) :
    pget (p.set a b) a = b := by
  rw [pget_set, if_pos ⟨rfl, ha⟩]

theorem pget_set_of_ne (p : List ℕ) (a b i : ℕ) (h : a ≠ i) :
    pget (p.set a b) i = pget p i := by
  rw [pget_set, if_neg (fun hc => h hc.1)]

theorem RchK_isRoot {p : List ℕ} {k x r : ℕ} (h : RchK p k x r) :
    IsRootP p r := by
  induction h with
  | root x hx => exact hx
  | step k x r _ _ ih => exact ih

theorem RchK_det {p : List ℕ} {k x r : ℕ} (h : RchK p k x r) :
    ∀ {k' r' : ℕ}, RchK p k' x r' → k = k' ∧ r = r' := by
  induction h with
  | root x hx =>
      intro k' r' h'
      cases h' with
      | root _ _ => exact ⟨rfl, rfl⟩
      | step _ _ _ hnx _ => exact absurd hx hnx
  | step k x r hx _ ih =>
      intro k' r' h'
      cases h' with
      | root _ hx' => exact absurd hx' hx
      | step k2 _ _ _ hr2 =>
          obtain ⟨hk, hrr⟩ := ih hr2
          exact ⟨by omega, hrr⟩

theorem RchK_congr {p q : List ℕ} (hpg : ∀ i, pget q i = pget p i)
    {k x r : ℕ} (h : RchK p k x r) : RchK q k x r := by
  induction h with
  | root x hx =>
      exact RchK.root x (show pget q x = x by rw [hpg x]; exact hx)
  | step k x r hx _ ih =>
      refine RchK.step k x r ?_ ?_
      · intro hh
        exact hx (show pget p x = x by rw [← hpg x]; exact hh)
      · rw [hpg x]
        exact ih

theorem RchK_lt_length {p : List ℕ} (hrg : rangeOK p) :
    ∀ {k x r : ℕ}, RchK p k x r → x < p.length → r < p.length := by
  intro k x r h
  induction h with
  | root x _ => exact fun hx => hx
  | step k x r _ _ ih => exact fun hx => ih (hrg x hx)

theorem RchK_get_path {p : List ℕ} {k x r : ℕ} (h : RchK p k x r) :
    ∃ path : List ℕ, path.length = k ∧
      ∀ m (hm : m < path.length),
        RchK p (k - m) (path.get ⟨m, hm⟩) r ∧
          ¬ IsRootP p (path.get ⟨m, hm⟩) := by
  induction h with
  | root x _ =>
      refine ⟨[], rfl, ?_⟩
      intro m hm
      exact absurd hm (by simp)
  | step k x r hx hstep ih =>
      obtain ⟨path, hlen, hprop⟩ := ih
      refine ⟨x :: path, by simp [hlen], ?_⟩
      intro m hm
      cases m with
      | zero =>
          refine ⟨?_, hx⟩
          have : k + 1 - 0 = k + 1 := rfl
          rw [this]
          exact RchK.step k x r hx hstep
      | succ m0 =>
          have hm0 : m0 < path.length := by
            simp only [List.length_cons] at hm
            omega
          have hget : (x :: path).get ⟨m0 + 1, hm⟩ = path.get ⟨m0, hm0⟩ := rfl
          rw [hget]
          have := hprop m0 hm0
          have harith : k + 1 - (m0 + 1) = k - m0 := by omega
          rw [harith]
          exact this

theorem RchK_le_length {p : List ℕ} {k x r : ℕ}
    (h : RchK p k x r) : k ≤ p.length := by
  obtain ⟨path, hlen, hprop⟩ := RchK_get_path h
  have hinj : Function.Injective path.get := by
    intro m1 m2 heq
    obtain ⟨i1, h1⟩ := m1
    obtain ⟨i2, h2⟩ := m2
    have p1 := hprop i1 h1
    have p2 := hprop i2 h2
    rw [heq] at p1
    obtain ⟨hk, _⟩ := RchK_det p1.1 p2.1
    have : i1 = i2 := by omega
    exact Fin.ext this
  have hnd : path.Nodup := List.nodup_iff_injective_get.mpr hinj
  have hsub : path.toFinset ⊆ Finset.range p.length := by
    intro y hy
    rw [List.mem_toFinset] at hy
    obtain ⟨m, hget⟩ := List.mem_iff_get.mp hy
    rw [Finset.mem_range, ← hget]
    exact lt_of_not_isRoot p _ (hprop m.1 m.2).2
  calc k = path.length := hlen.symm
    _ = path.toFinset.card := (List.toFinset_card_of_nodup hnd).symm
    _ ≤ (Finset.range p.length).card := Finset.card_le_card hsub
    _ = p.length := Finset.card_range _

theorem rootFuel_eq {p : List ℕ} : ∀ {k x r : ℕ}, RchK p k x r →
    ∀ fuel, k < fuel → rootFuel fuel p x = r := by
  intro k x r h
  induction h with
  | root x hx =>
      intro fuel hf
      cases fuel with
      | zero => omega
      | succ f =>
          show (if pget p x = x then x else rootFuel f p (pget p x)) = x
          rw [if_pos (show pget p x = x from hx)]
  | step k x r hx _ ih =>
      intro fuel hf
      cases fuel with
      | zero => omega
      | succ f =>
          show (if pget p x = x then x else rootFuel f p (pget p x)) = r
          rw [if_neg (show ¬ pget p x = x from hx)]
          exact ih f (by omega)

theorem rootD_eq {p : List ℕ} {k x r : ℕ}
    (h : RchK p k x r) : rootD p x = r :=
  rootFuel_eq h (p.length + 1) (Nat.lt_succ_of_le (RchK_le_length h))

theorem rootD_spec {p : List ℕ} (hInv : InvP p) (x : ℕ) :
    Rch p x (rootD p x) := by
  obtain ⟨r, k, hk⟩ := hInv.2 x
  rw [rootD_eq hk]
  exact ⟨k, hk⟩

theorem isRoot_rootD {p : List ℕ} (hInv : InvP p) (x : ℕ) :
    IsRootP p (rootD p x) := by
  obtain ⟨k, hk⟩ := rootD_spec hInv x
  exact RchK_isRoot hk

theorem rootD_of_isRoot {p : List ℕ} {x : ℕ} (hx : IsRootP p x) :
    rootD p x = x := by
  rw [rootD]
  show (if pget p x = x then x else rootFuel p.length p (pget p x)) = x
  rw [if_pos (show pget p x = x from hx)]

theorem rootD_idem {p : List ℕ} (hInv : InvP p) (x : ℕ) :
    rootD p (rootD p x) = rootD p x :=
  rootD_of_isRoot (isRoot_rootD hInv x)

theorem rootD_lt_length {p : List ℕ} (hInv : InvP p) {x : ℕ}
    (hx : x < p.length) : rootD p x < p.length := by
  obtain ⟨k, hk⟩ := rootD_spec hInv x
  exact RchK_lt_length hInv.1 hk hx

theorem rangeOK_set {p : List ℕ} (hrg : rangeOK p) {a b : ℕ}
    (hb : b < p.length) : rangeOK (p.set a b) := by
  intro i hi
  rw [List.length_set] at hi
  rw [List.length_set, pget_set]
  by_cases hcase : a = i ∧ a < p.length
  · rw [if_pos hcase]; exact hb
  · rw [if_neg hcase]; exact hrg i hi

/-- Re-pointing the root `a` at the root `b` re-roots exactly the class of
`a` at `b` and leaves every other chain unchanged. -/
theorem RchK_set_link {p : List ℕ} {a b : ℕ} (ha : IsRootP p a)
    (hb : IsRootP p b) (hab : a ≠ b) (halen : a < p.length) :
    ∀ {k z r : ℕ}, RchK p k z r →
      Rch (p.set a b) z (if r = a then b else r) := by
  intro k z r h
  induction h with
  | root z hz =>
      by_cases hza : z = a
      · subst hza
        rw [if_pos rfl]
        have hpg : pget (p.set z b) z = b := pget_set_self p z b halen
        have hstep : ¬ IsRootP (p.set z b) z := by
          show ¬ pget (p.set z b) z = z
          rw [hpg]
          exact fun he => hab he.symm
        have hbroot : IsRootP (p.set z b) b := by
          show pget (p.set z b) b = b
          rw [pget_set_of_ne p z b b hab]
          exact hb
        refine ⟨1, RchK.step 0 z b hstep ?_⟩
        rw [hpg]
        exact RchK.root b hbroot
      · rw [if_neg (by exact fun he => hza he)]
        refine ⟨0, RchK.root z ?_⟩
        show pget (p.set a b) z = z
        rw [pget_set_of_ne p a b z (fun he => hza he.symm)]
        exact hz
  | step k z r hz _ ih =>
      obtain ⟨k', hk'⟩ := ih
      have hza : z ≠ a := fun he => hz (he ▸ ha)
      refine ⟨k' + 1, RchK.step k' z _ ?_ ?_⟩
      · intro hh
        apply hz
        show pget p z = z
        rw [← pget_set_of_ne p a b z (fun he => hza he.symm)]
        exact hh
      · rw [pget_set_of_ne p a b z (fun he => hza he.symm)]
        exact hk'

theorem set_link_full {p : List ℕ} (hInv : InvP p) {a b : ℕ}
    (ha : IsRootP p a) (hb : IsRootP p b) (hab : a ≠ b)
    (halen : a < p.length) (hblen : b < p.length) :
    InvP (p.set a b) ∧
    (∀ z, rootD (p.set a b) z = if rootD p z = a then b else rootD p z) := by
  have hreach : ∀ z, Rch (p.set a b) z (if rootD p z = a then b
      else rootD p z) := by
    intro z
    obtain ⟨k, hk⟩ := rootD_spec hInv z
    exact RchK_set_link ha hb hab halen hk
  refine ⟨⟨rangeOK_set hInv.1 hblen, ?_⟩, ?_⟩
  · intro z
    obtain ⟨k, hk⟩ := hreach z
    exact ⟨_, k, hk⟩
  · intro z
    obtain ⟨k, hk⟩ := hreach z
    exact rootD_eq hk

/-- Path compression: re-pointing any node directly at its own root changes
no root. -/
theorem RchK_set_shortcut {p : List ℕ} (_hInv : InvP p) {x r0 : ℕ}
    (hx0 : Rch p x r0) :
    ∀ (k z s : ℕ), RchK p k z s → Rch (p.set x r0) z s := by
  by_cases hroot : IsRootP p x
  · obtain ⟨k0, hk0⟩ := hx0
    have hr0 : r0 = x := (RchK_det hk0 (RchK.root x hroot)).2
    have hpg : ∀ i, pget (p.set x r0) i = pget p i := by
      intro i
      rw [pget_set]
      by_cases hc : x = i ∧ x < p.length
      · rw [if_pos hc, hr0, hc.1]
        exact (show pget p i = i from hc.1 ▸ hroot).symm
      · rw [if_neg hc]
    intro k z s h
    exact ⟨k, RchK_congr hpg h⟩
  · have hxlen := lt_of_not_isRoot p x hroot
    obtain ⟨k0, hk0⟩ := hx0
    have hr0root : IsRootP p r0 := RchK_isRoot hk0
    have hr0x : r0 ≠ x := fun he => hroot (he ▸ hr0root)
    have hpgx : pget (p.set x r0) x = r0 := pget_set_self p x r0 hxlen
    have hrootr0 : IsRootP (p.set x r0) r0 := by
      show pget (p.set x r0) r0 = r0
      rw [pget_set_of_ne p x r0 r0 (fun he => hr0x he.symm)]
      exact hr0root
    intro k z s h
    induction h with
    | root z hz =>
        have hzx : z ≠ x := fun he => hroot (he ▸ hz)
        refine ⟨0, RchK.root z ?_⟩
        show pget (p.set x r0) z = z
        rw [pget_set_of_ne p x r0 z (fun he => hzx he.symm)]
        exact hz
    | step k z s hz hstep ih =>
        by_cases hzx : z = x
        · subst hzx
          have hfull : RchK p (k + 1) z s := RchK.step k z s hz hstep
          have hs : s = r0 := (RchK_det hfull hk0).2
          subst hs
          refine ⟨1, RchK.step 0 z s ?_ ?_⟩
          · intro hh
            apply hz
            have : pget (p.set z s) z = z := hh
            rw [hpgx] at this
            exact absurd this.symm (by exact fun he => hr0x he.symm)
          · rw [hpgx]
            exact RchK.root s hrootr0
        · obtain ⟨k', hk'⟩ := ih
          refine ⟨k' + 1, RchK.step k' z s ?_ ?_⟩
          · intro hh
            apply hz
            show pget p z = z
            rw [← pget_set_of_ne p x r0 z (fun he => hzx he.symm)]
            exact hh
          · rw [pget_set_of_ne p x r0 z (fun he => hzx he.symm)]
            exact hk'

theorem set_shortcut_full {p : List ℕ} (hInv : InvP p) {x r0 : ℕ}
    (hx0 : Rch p x r0) :
    InvP (p.set x r0) ∧ ∀ z, rootD (p.set x r0) z = rootD p z := by
  have hrg : rangeOK (p.set x r0) := by
    by_cases hxlen : x < p.length
    · obtain ⟨k0, hk0⟩ := hx0
      exact rangeOK_set hInv.1 (RchK_lt_length hInv.1 hk0 hxlen)
    · intro i hi
      rw [List.length_set] at hi
      rw [List.length_set, pget_set, if_neg (fun hc => hxlen hc.2)]
      exact hInv.1 i hi
  have hreach : ∀ z s, Rch p z s → Rch (p.set x r0) z s := by
    intro z s hzs
    obtain ⟨k, hk⟩ := hzs
    exact RchK_set_shortcut hInv hx0 _ _ _ hk
  refine ⟨⟨hrg, ?_⟩, ?_⟩
  · intro z
    obtain ⟨s, hs⟩ := hInv.2 z
    exact ⟨s, hreach z s hs⟩
  · intro z
    obtain ⟨k, hk⟩ := rootD_spec hInv z
    obtain ⟨k', hk'⟩ := hreach z _ ⟨k, hk⟩
    exact rootD_eq hk'

/-- `find` with path compression returns the compression-free root and
preserves every root, the invariant and the list length. -/
theorem findC_spec {p : List ℕ} (hInv : InvP p) :
    ∀ (k x r : ℕ), RchK p k x r → ∀ (fuel : ℕ), k < fuel →
      (findC fuel p x).1 = r ∧
      (findC fuel p x).2.length = p.length ∧
      InvP (findC fuel p x).2 ∧
      (∀ z, rootD (findC fuel p x).2 z = rootD p z) := by
  intro k x r h
  induction h with
  | root x hx =>
      intro fuel hf
      cases fuel with
      | zero => omega
      | succ f =>
          have hred : findC (f + 1) p x = (x, p) := by
            show (if pget p x = x then (x, p)
              else ((findC f p (pget p x)).1,
                (findC f p (pget p x)).2.set x (findC f p (pget p x)).1)) = (x, p)
            rw [if_pos (show pget p x = x from hx)]
          rw [hred]
          exact ⟨rfl, rfl, hInv, fun z => rfl⟩
  | step k x r hx hstep ih =>
      intro fuel hf
      cases fuel with
      | zero => omega
      | succ f =>
          obtain ⟨h1, h2, h3, h4⟩ := ih f (by omega)
          have hred : findC (f + 1) p x
              = ((findC f p (pget p x)).1,
                (findC f p (pget p x)).2.set x (findC f p (pget p x)).1) := by
            show (if pget p x = x then (x, p)
              else ((findC f p (pget p x)).1,
                (findC f p (pget p x)).2.set x (findC f p (pget p x)).1))
              = _
            rw [if_neg (show ¬ pget p x = x from hx)]
          rw [hred]
          have hpx : rootD p x = r := rootD_eq (RchK.step k x r hx hstep)
          have hRx : Rch (findC f p (pget p x)).2 x r := by
            have hself := rootD_spec h3 x
            rw [h4 x, hpx] at hself
            exact hself
          obtain ⟨hInv', hroots'⟩ := set_shortcut_full h3 hRx
          rw [h1]
          refine ⟨rfl, ?_, hInv', ?_⟩
          · rw [List.length_set]
            exact h2
          · intro z
            rw [hroots' z, h4 z]

theorem findC_full {p : List ℕ} (hInv : InvP p) (x : ℕ) :
    (findC (p.length + 1) p x).1 = rootD p x ∧
    (findC (p.length + 1) p x).2.length = p.length ∧
    InvP (findC (p.length + 1) p x).2 ∧
    (∀ z, rootD (findC (p.length + 1) p x).2 z = rootD p z) := by
  obtain ⟨r, k, hk⟩ := hInv.2 x
  have hspec := findC_spec hInv k x r hk (p.length + 1)
    (Nat.lt_succ_of_le (RchK_le_length hk))
  rw [rootD_eq hk]
  exact hspec

theorem isRoot_of_rootD_self {p : List ℕ} (hInv : InvP p) {x : ℕ}
    (h : rootD p x = x) : IsRootP p x := by
  have hr := isRoot_rootD hInv x
  rwa [h] at hr

/-- `union(x, y)` re-roots the class of `x` at the root of `y` and changes
nothing else. -/
theorem unionC_spec {p : List ℕ} (hInv : InvP p) {x y : ℕ}
    (hx : x < p.length) (hy : y < p.length) :
    (unionC p x y).length = p.length ∧ InvP (unionC p x y) ∧
    ∀ z, rootD (unionC p x y) z =
      if rootD p z = rootD p x then rootD p y else rootD p z := by
  obtain ⟨f1v, f1len, f1inv, f1roots⟩ := findC_full hInv x
  obtain ⟨f2v, f2len, f2inv, f2roots⟩ := findC_full f1inv y
  rw [f1roots y] at f2v
  have f2rootsP : ∀ z,
      rootD (findC ((findC (p.length + 1) p x).2.length + 1)
        (findC (p.length + 1) p x).2 y).2 z = rootD p z := by
    intro z
    rw [f2roots z, f1roots z]
  have f2lenP : (findC ((findC (p.length + 1) p x).2.length + 1)
      (findC (p.length + 1) p x).2 y).2.length = p.length := f2len.trans f1len
  have hunfold : unionC p x y
      = (if (findC (p.length + 1) p x).1
            = (findC ((findC (p.length + 1) p x).2.length + 1)
                (findC (p.length + 1) p x).2 y).1
          then (findC ((findC (p.length + 1) p x).2.length + 1)
                (findC (p.length + 1) p x).2 y).2
          else (findC ((findC (p.length + 1) p x).2.length + 1)
                (findC (p.length + 1) p x).2 y).2.set
              (findC (p.length + 1) p x).1
              (findC ((findC (p.length + 1) p x).2.length + 1)
                (findC (p.length + 1) p x).2 y).1) := rfl
  rw [hunfold, f1v, f2v]
  by_cases hab : rootD p x = rootD p y
  · rw [if_pos hab]
    refine ⟨f2lenP, f2inv, ?_⟩
    intro z
    rw [f2rootsP z]
    by_cases hz : rootD p z = rootD p x
    · rw [if_pos hz, hz, hab]
    · rw [if_neg hz]
  · rw [if_neg hab]
    have hra : IsRootP (findC ((findC (p.length + 1) p x).2.length + 1)
        (findC (p.length + 1) p x).2 y).2 (rootD p x) := by
      apply isRoot_of_rootD_self f2inv
      rw [f2rootsP]
      exact rootD_idem hInv x
    have hrb : IsRootP (findC ((findC (p.length + 1) p x).2.length + 1)
        (findC (p.length + 1) p x).2 y).2 (rootD p y) := by
      apply isRoot_of_rootD_self f2inv
      rw [f2rootsP]
      exact rootD_idem hInv y
    have halen : rootD p x < (findC ((findC (p.length + 1) p x).2.length + 1)
        (findC (p.length + 1) p x).2 y).2.length := by
      rw [f2lenP]
      exact rootD_lt_length hInv hx
    have hblen : rootD p y < (findC ((findC (p.length + 1) p x).2.length + 1)
        (findC (p.length + 1) p x).2 y).2.length := by
      rw [f2lenP]
      exact rootD_lt_length hInv hy
    obtain ⟨hInv2, hroots2⟩ := set_link_full f2inv hra hrb hab halen hblen
    refine ⟨?_, hInv2, ?_⟩
    · rw [List.length_set]
      exact f2lenP
    · intro z
      rw [hroots2 z, f2rootsP z]

theorem pget_range (n i : ℕ) : pget (List.range n) i = i := by
  rw [pget, List.getD_eq_getElem?_getD]
  by_cases hi : i < n
  · rw [List.getElem?_eq_getElem (by simpa using hi)]
    simp
  · rw [List.getElem?_eq_none (by simpa using Nat.le_of_not_lt hi)]
    rfl

theorem InvP_range (n : ℕ) : InvP (List.range n) := by
  constructor
  · intro i hi
    rw [show pget (List.range n) i = i from pget_range n i]
    exact hi
  · intro x
    exact ⟨x, 0, RchK.root x (pget_range n x)⟩

theorem rootD_range (n x : ℕ) : rootD (List.range n) x = x :=
  rootD_of_isRoot (pget_range n x)

/-- Folding the union calls keeps the invariant, the length, and the class
property: every index that is not its own root shares its class with an
index satisfying `P`, provided every union's first argument satisfies `P`. -/
theorem foldl_unionC_spec (P : ℕ → Prop) :
    ∀ (pairs : List (ℕ × ℕ)) (p : List ℕ), InvP p →
    (∀ q ∈ pairs, q.1 < p.length ∧ q.2 < p.length ∧ P q.1) →
    (∀ i, i < p.length → rootD p i ≠ i →
      ∃ k, k < p.length ∧ rootD p k = rootD p i ∧ P k) →
    InvP (pairs.foldl (fun pp q => unionC pp q.1 q.2) p) ∧
    (pairs.foldl (fun pp q => unionC pp q.1 q.2) p).length = p.length ∧
    (∀ i, i < p.length →
      rootD (pairs.foldl (fun pp q => unionC pp q.1 q.2) p) i ≠ i →
      ∃ k, k < p.length ∧
        rootD (pairs.foldl (fun pp q => unionC pp q.1 q.2) p) k
          = rootD (pairs.foldl (fun pp q => unionC pp q.1 q.2) p) i ∧ P k) := by
  intro pairs
  induction pairs with
  | nil =>
      intro p hInv _hq hL
      exact ⟨hInv, rfl, hL⟩
  | cons q rest ih =>
      intro p hInv hq hL
      obtain ⟨hq1, hq2, hqP⟩ := hq q (List.mem_cons_self _ _)
      obtain ⟨hulen, huinv, huroots⟩ := unionC_spec hInv hq1 hq2
      have hrest : ∀ q' ∈ rest, q'.1 < (unionC p q.1 q.2).length ∧
          q'.2 < (unionC p q.1 q.2).length ∧ P q'.1 := by
        intro q' hq'
        obtain ⟨h1, h2, h3⟩ := hq q' (List.mem_cons_of_mem _ hq')
        rw [hulen]
        exact ⟨h1, h2, h3⟩
      have hL' : ∀ i, i < (unionC p q.1 q.2).length →
          rootD (unionC p q.1 q.2) i ≠ i →
          ∃ k, k < (unionC p q.1 q.2).length ∧
            rootD (unionC p q.1 q.2) k = rootD (unionC p q.1 q.2) i ∧ P k := by
        intro i hi hri
        rw [hulen] at hi
        by_cases hc : rootD p i = rootD p q.1
        · refine ⟨q.1, ?_, ?_, hqP⟩
          · rw [hulen]; exact hq1
          · rw [huroots q.1, huroots i, if_pos hc, if_pos rfl]
        · have hri' : rootD p i ≠ i := by
            rw [huroots i, if_neg hc] at hri
            exact hri
          obtain ⟨k, hk, hkr, hkP⟩ := hL i hi hri'
          refine ⟨k, ?_, ?_, hkP⟩
          · rw [hulen]; exact hk
          · rw [huroots k, huroots i, if_neg hc, hkr, if_neg hc]
      obtain ⟨hInvF, hlenF, hLF⟩ := ih (unionC p q.1 q.2) huinv hrest hL'
      simp only [List.foldl_cons]
      refine ⟨hInvF, hlenF.trans hulen, ?_⟩
      intro i hi hri
      obtain ⟨k, hk, hkr, hkP⟩ := hLF i (by rw [hulen]; exact hi) hri
      refine ⟨k, ?_, hkr, hkP⟩
      rw [← hulen]
      exact hk

/-! ### Membership facts about the two union passes -/

theorem enumBoxes_mem {bs : List Region} {ib : ℕ × Region}
    (h : ib ∈ enumBoxes bs) :
    ib.1 < bs.length ∧ bs.getD ib.1 default = ib.2 := by
  rw [enumBoxes, List.mem_enum_iff_getElem?] at h
  have hlt : ib.1 < bs.length := by
    by_contra hc
    rw [List.getElem?_eq_none (Nat.le_of_not_lt hc)] at h
    cases h
  refine ⟨hlt, ?_⟩
  rw [List.getD_eq_getElem?_getD, h]
  rfl

theorem mem_passA {bs : List Region} {t : ℚ} {distThr : ℕ} {q : ℕ × ℕ}
    (h : q ∈ passA bs t distThr) :
    q.1 < bs.length ∧ q.2 < bs.length ∧
    isLargeBox t (bs.getD q.1 default) = true ∧
    isSmallBox t (bs.getD q.2 default) = true := by
  rw [passA, List.mem_flatMap] at h
  obtain ⟨lb, hlb, h⟩ := h
  rw [List.mem_filter] at hlb
  rw [List.mem_filterMap] at h
  obtain ⟨sb, hsb, hmk⟩ := h
  rw [List.mem_filter] at hsb
  by_cases hdist :
      centersClose (boxCenter lb.2.bbox) (boxCenter sb.2.bbox) distThr = true
  · rw [if_pos hdist] at hmk
    obtain ⟨hl1, hl2⟩ := enumBoxes_mem hlb.1
    obtain ⟨hs1, hs2⟩ := enumBoxes_mem hsb.1
    cases hmk
    refine ⟨hl1, hs1, ?_, ?_⟩
    · rw [show (lb.1, sb.1).1 = lb.1 from rfl, hl2]
      exact hlb.2
    · rw [show (lb.1, sb.1).2 = sb.1 from rfl, hs2]
      exact hsb.2
  · rw [if_neg hdist] at hmk
    cases hmk

theorem mem_passBAux {distThr : ℕ} :
    ∀ {l : List (ℕ × Region)} {q : ℕ × ℕ}, q ∈ passBAux distThr l →
      ∃ lb ∈ l, ∃ lb2 ∈ l, q = (lb.1, lb2.1) := by
  intro l
  induction l with
  | nil => intro q h; cases h
  | cons lb rest ih =>
      intro q h
      rw [passBAux, List.mem_append] at h
      rcases h with h | h
      · rw [List.mem_filterMap] at h
        obtain ⟨lb2, hlb2, hmk⟩ := h
        by_cases hdist : centersClose (boxCenter lb.2.bbox)
            (boxCenter lb2.2.bbox) distThr = true
        · rw [if_pos hdist] at hmk
          cases hmk
          exact ⟨lb, List.mem_cons_self _ _, lb2,
            List.mem_cons_of_mem _ hlb2, rfl⟩
        · rw [if_neg hdist] at hmk
          cases hmk
      · obtain ⟨a, ha, b, hb, hq⟩ := ih h
        exact ⟨a, List.mem_cons_of_mem _ ha, b,
          List.mem_cons_of_mem _ hb, hq⟩

theorem mem_passB {bs : List Region} {t : ℚ} {distThr : ℕ} {q : ℕ × ℕ}
    (h : q ∈ passB bs t distThr) :
    q.1 < bs.length ∧ q.2 < bs.length ∧
    isLargeBox t (bs.getD q.1 default) = true ∧
    isLargeBox t (bs.getD q.2 default) = true := by
  rw [passB] at h
  obtain ⟨a, ha, b, hb, hq⟩ := mem_passBAux h
  rw [List.mem_filter] at ha hb
  obtain ⟨ha1, ha2⟩ := enumBoxes_mem ha.1
  obtain ⟨hb1, hb2⟩ := enumBoxes_mem hb.1
  subst hq
  refine ⟨ha1, hb1, ?_, ?_⟩
  · rw [show (a.1, b.1).1 = a.1 from rfl, ha2]
    exact ha.2
  · rw [show (a.1, b.1).2 = b.1 from rfl, hb2]
    exact hb.2

theorem not_small_and_large (t : ℚ) (b : Region) :
    ¬ (isSmallBox t b = true ∧ isLargeBox t b = true) := by
  intro hc
  rw [isSmallBox, decide_eq_true_eq] at hc
  rw [isLargeBox, decide_eq_true_eq] at hc
  exact absurd hc.1 (not_lt.mpr hc.2)

theorem mem_unionPairs {bs : List Region} {t : ℚ} {distThr : ℕ} {q : ℕ × ℕ}
    (h : q ∈ unionPairs bs t distThr) :
    q.1 < bs.length ∧ q.2 < bs.length ∧
    isLargeBox t (bs.getD q.1 default) = true := by
  rw [unionPairs, List.mem_append] at h
  rcases h with h | h
  · obtain ⟨h1, h2, h3, _⟩ := mem_passA h
    exact ⟨h1, h2, h3⟩
  · obtain ⟨h1, h2, h3, _⟩ := mem_passB h
    exact ⟨h1, h2, h3⟩

/-! ### The grouping loop groups by the final roots -/

theorem lookupGroup_addToGroups_self (gs : List (ℕ × List Region)) (r : ℕ)
    (b : Region) :
    lookupGroup (addToGroups gs r b) r = lookupGroup gs r ++ [b] := by
  induction gs with
  | nil => simp [addToGroups, lookupGroup]
  | cons g rest ih =>
      obtain ⟨k, ms⟩ := g
      by_cases hk : k = r
      · rw [addToGroups, if_pos hk, lookupGroup, if_pos hk, lookupGroup,
          if_pos hk]
      · rw [addToGroups, if_neg hk, lookupGroup, if_neg hk, lookupGroup,
          if_neg hk]
        exact ih

theorem lookupGroup_addToGroups_ne (gs : List (ℕ × List Region)) (r : ℕ)
    (b : Region) (r' : ℕ) (h : r' ≠ r) :
    lookupGroup (addToGroups gs r b) r' = lookupGroup gs r' := by
  induction gs with
  | nil =>
      simp only [addToGroups, lookupGroup]
      rw [if_neg (fun he : r = r' => h (Eq.symm he))]
  | cons g rest ih =>
      obtain ⟨k, ms⟩ := g
      by_cases hk : k = r
      · rw [addToGroups, if_pos hk, lookupGroup, lookupGroup]
        have hk' : ¬ k = r' := fun he => h (he ▸ hk)
        rw [if_neg hk', if_neg hk']
      · rw [addToGroups, if_neg hk, lookupGroup, lookupGroup]
        by_cases hk2 : k = r'
        · rw [if_pos hk2, if_pos hk2]
        · rw [if_neg hk2, if_neg hk2]
          exact ih

theorem keys_addToGroups (gs : List (ℕ × List Region)) (r : ℕ) (b : Region) :
    (addToGroups gs r b).map Prod.fst = gs.map Prod.fst ∨
    ((addToGroups gs r b).map Prod.fst = gs.map Prod.fst ++ [r] ∧
      r ∉ gs.map Prod.fst) := by
  induction gs with
  | nil =>
      right
      simp [addToGroups]
  | cons g rest ih =>
      obtain ⟨k, ms⟩ := g
      by_cases hk : k = r
      · left
        rw [addToGroups, if_pos hk]
        simp
      · rcases ih with h1 | ⟨h1, h2⟩
        · left
          rw [addToGroups, if_neg hk]
          simp only [List.map_cons]
          rw [h1]
        · right
          rw [addToGroups, if_neg hk]
          simp only [List.map_cons]
          rw [h1]
          refine ⟨rfl, ?_⟩
          simp only [List.mem_cons]
          rintro (he | he)
          · exact hk he.symm
          · exact h2 he

theorem keys_nodup_addToGroups (gs : List (ℕ × List Region)) (r : ℕ)
    (b : Region) (h : (gs.map Prod.fst).Nodup) :
    ((addToGroups gs r b).map Prod.fst).Nodup := by
  rcases keys_addToGroups gs r b with h1 | ⟨h1, h2⟩
  · rw [h1]; exact h
  · rw [h1]
    rw [List.nodup_append]
    refine ⟨h, List.nodup_singleton r, ?_⟩
    intro x hx hx2
    rw [List.mem_singleton] at hx2
    subst hx2
    exact h2 hx

theorem mem_eq_lookupGroup :
    ∀ (gs : List (ℕ × List Region)), (gs.map Prod.fst).Nodup →
      ∀ {r : ℕ} {ms : List Region}, (r, ms) ∈ gs → ms = lookupGroup gs r := by
  intro gs
  induction gs with
  | nil => intro _ r ms h; cases h
  | cons g rest ih =>
      obtain ⟨k, m0⟩ := g
      intro hnd r ms h
      rcases List.mem_cons.mp h with h | h
      · injection h with hr hm
        subst hr
        subst hm
        rw [lookupGroup, if_pos rfl]
      · have hk : ¬ k = r := by
          intro he
          subst he
          rw [List.map_cons, List.nodup_cons] at hnd
          exact hnd.1 (List.mem_map.mpr ⟨(k, ms), h, rfl⟩)
        rw [lookupGroup, if_neg hk]
        rw [List.map_cons, List.nodup_cons] at hnd
        exact ih hnd.2 h

theorem pureGroups_lookup (ρ : ℕ → ℕ) :
    ∀ (rest : List Region) (i : ℕ) (gs : List (ℕ × List Region)) (r : ℕ),
      lookupGroup (pureGroups ρ i rest gs) r
        = lookupGroup gs r ++ segBucket ρ i rest r := by
  intro rest
  induction rest with
  | nil =>
      intro i gs r
      simp [pureGroups, segBucket]
  | cons b rest ih =>
      intro i gs r
      show lookupGroup (pureGroups ρ (i + 1) rest (addToGroups gs (ρ i) b)) r
        = lookupGroup gs r
          ++ ((if ρ i = r then [b] else []) ++ segBucket ρ (i + 1) rest r)
      rw [ih (i + 1) (addToGroups gs (ρ i) b) r]
      by_cases hr : ρ i = r
      · rw [if_pos hr, hr, lookupGroup_addToGroups_self gs r b,
          List.append_assoc]
      · rw [if_neg hr,
          lookupGroup_addToGroups_ne gs (ρ i) b r (fun he => hr (Eq.symm he))]
        rfl

theorem pureGroups_keys_nodup (ρ : ℕ → ℕ) :
    ∀ (rest : List Region) (i : ℕ) (gs : List (ℕ × List Region)),
      (gs.map Prod.fst).Nodup →
      ((pureGroups ρ i rest gs).map Prod.fst).Nodup := by
  intro rest
  induction rest with
  | nil => intro i gs h; exact h
  | cons b rest ih =>
      intro i gs h
      exact ih (i + 1) _ (keys_nodup_addToGroups gs (ρ i) b h)

theorem pureGroups_mem_bucket (ρ : ℕ → ℕ) (bs : List Region) {r : ℕ}
    {ms : List Region} (h : (r, ms) ∈ pureGroups ρ 0 bs []) :
    ms = segBucket ρ 0 bs r := by
  have hnd := pureGroups_keys_nodup ρ bs 0 [] (by simp)
  have heq := mem_eq_lookupGroup _ hnd h
  rw [heq, pureGroups_lookup ρ bs 0 [] r]
  rfl

theorem segBucket_mem_of (ρ : ℕ → ℕ) {r : ℕ} :
    ∀ (rest : List Region) (i j : ℕ), i ≤ j → j < i + rest.length →
      ρ j = r → rest.getD (j - i) default ∈ segBucket ρ i rest r := by
  intro rest
  induction rest with
  | nil =>
      intro i j h1 h2
      simp at h2
      omega
  | cons b rest ih =>
      intro i j h1 h2 h3
      by_cases hij : j = i
      · subst hij
        rw [Nat.sub_self]
        show b ∈ (if ρ j = r then [b] else []) ++ segBucket ρ (j + 1) rest r
        rw [if_pos h3]
        exact List.mem_append.mpr (Or.inl (List.mem_singleton.mpr rfl))
      · have hij1 : i + 1 ≤ j := by omega
        have hsub : j - i = (j - (i + 1)) + 1 := by omega
        rw [hsub]
        show rest.getD (j - (i + 1)) default
          ∈ (if ρ i = r then [b] else []) ++ segBucket ρ (i + 1) rest r
        refine List.mem_append.mpr (Or.inr ?_)
        refine ih (i + 1) j hij1 ?_ h3
        simp only [List.length_cons] at h2
        omega

theorem segBucket_one (ρ : ℕ → ℕ) (r : ℕ) :
    ∀ (rest : List Region) (i : ℕ), 1 ≤ (segBucket ρ i rest r).length →
      ∃ j, i ≤ j ∧ j < i + rest.length ∧ ρ j = r := by
  intro rest
  induction rest with
  | nil =>
      intro i h
      simp [segBucket] at h
  | cons b rest ih =>
      intro i h
      by_cases hr : ρ i = r
      · exact ⟨i, le_refl i, by simp, hr⟩
      · rw [show segBucket ρ i (b :: rest) r
            = (if ρ i = r then [b] else []) ++ segBucket ρ (i + 1) rest r
            from rfl, if_neg hr] at h
        simp only [List.nil_append] at h
        obtain ⟨j, h1, h2, h3⟩ := ih (i + 1) h
        refine ⟨j, by omega, by simp only [List.length_cons]; omega, h3⟩

theorem segBucket_two (ρ : ℕ → ℕ) (r : ℕ) :
    ∀ (rest : List Region) (i : ℕ), 2 ≤ (segBucket ρ i rest r).length →
      ∃ j1 j2, i ≤ j1 ∧ j1 < j2 ∧ j2 < i + rest.length ∧
        ρ j1 = r ∧ ρ j2 = r := by
  intro rest
  induction rest with
  | nil =>
      intro i h
      simp [segBucket] at h
  | cons b rest ih =>
      intro i h
      rw [show segBucket ρ i (b :: rest) r
          = (if ρ i = r then [b] else []) ++ segBucket ρ (i + 1) rest r
          from rfl] at h
      by_cases hr : ρ i = r
      · rw [if_pos hr] at h
        simp only [List.length_append, List.length_singleton] at h
        obtain ⟨j, h1, h2, h3⟩ := segBucket_one ρ r rest (i + 1) (by omega)
        refine ⟨i, j, le_refl i, by omega, ?_, hr, h3⟩
        simp only [List.length_cons]
        omega
      · rw [if_neg hr, List.nil_append] at h
        obtain ⟨j1, j2, h1, h2, h3, h4, h5⟩ := ih (i + 1) h
        refine ⟨j1, j2, by omega, h2, ?_, h4, h5⟩
        simp only [List.length_cons]
        omega

theorem pureGroups_congr {ρ ρ2 : ℕ → ℕ} (h : ∀ j, ρ j = ρ2 j) :
    ∀ (bs : List Region) (i : ℕ) (gs : List (ℕ × List Region)),
      pureGroups ρ i bs gs = pureGroups ρ2 i bs gs := by
  intro bs
  induction bs with
  | nil => intro i gs; rfl
  | cons b rest ih =>
      intro i gs
      show pureGroups ρ (i + 1) rest (addToGroups gs (ρ i) b)
        = pureGroups ρ2 (i + 1) rest (addToGroups gs (ρ2 i) b)
      rw [h i]
      exact ih (i + 1) _

/-- The stateful grouping loop computes exactly the state-free grouping by
the roots of its starting parent list: `find` returns those roots and its
compression never changes them. -/
theorem groupsGo_eq_pure :
    ∀ (bs : List Region) (p : List ℕ), InvP p →
      ∀ (i : ℕ) (gs : List (ℕ × List Region)),
        groupsGo p i bs gs = pureGroups (rootD p) i bs gs := by
  intro bs
  induction bs with
  | nil => intro p _ i gs; rfl
  | cons b rest ih =>
      intro p hInv i gs
      obtain ⟨f1, _flen, finv, froots⟩ := findC_full hInv i
      show groupsGo (findC (p.length + 1) p i).2 (i + 1) rest
          (addToGroups gs (findC (p.length + 1) p i).1 b)
        = pureGroups (rootD p) (i + 1) rest (addToGroups gs (rootD p i) b)
      rw [f1, ih (findC (p.length + 1) p i).2 finv (i + 1)
        (addToGroups gs (rootD p i) b)]
      exact pureGroups_congr froots rest (i + 1) _

/-- The parent list after both passes keeps the forest invariant and the
class property: every index not its own root shares a class with a large
index. -/
theorem finalParent_spec (bs : List Region) (t : ℚ) (distThr : ℕ) :
    InvP (finalParent bs t distThr) ∧
    (finalParent bs t distThr).length = bs.length ∧
    (∀ i, i < bs.length → rootD (finalParent bs t distThr) i ≠ i →
      ∃ k, k < bs.length ∧
        rootD (finalParent bs t distThr) k
          = rootD (finalParent bs t distThr) i ∧
        isLargeBox t (bs.getD k default) = true) := by
  have hq : ∀ q ∈ unionPairs bs t distThr,
      q.1 < (List.range bs.length).length ∧
      q.2 < (List.range bs.length).length ∧
      isLargeBox t (bs.getD q.1 default) = true := by
    intro q hqm
    obtain ⟨h1, h2, h3⟩ := mem_unionPairs hqm
    rw [List.length_range]
    exact ⟨h1, h2, h3⟩
  have hL : ∀ i, i < (List.range bs.length).length →
      rootD (List.range bs.length) i ≠ i →
      ∃ k, k < (List.range bs.length).length ∧
        rootD (List.range bs.length) k = rootD (List.range bs.length) i ∧
        isLargeBox t (bs.getD k default) = true := by
    intro i _ hri
    exact absurd (rootD_range bs.length i) hri
  obtain ⟨hInvF, hlenF, hLF⟩ := foldl_unionC_spec
    (fun i => isLargeBox t (bs.getD i default) = true)
    (unionPairs bs t distThr) (List.range bs.length) (InvP_range bs.length)
    hq hL
  refine ⟨hInvF, ?_, ?_⟩
  · rw [show finalParent bs t distThr
      = (unionPairs bs t distThr).foldl (fun pp q => unionC pp q.1 q.2)
          (List.range bs.length) from rfl, hlenF, List.length_range]
  · intro i hi hri
    obtain ⟨k, hk, hkr, hkP⟩ := hLF i (by rw [List.length_range]; exact hi) hri
    rw [List.length_range] at hk
    exact ⟨k, hk, hkr, hkP⟩

/-- C9: every union call of the merge engine pairs a large region with a
small one (pass 1) or two large regions (pass 2) — never two small regions —
so every output group of two or more members contains at least one region at
or above the size cutoff, and on nonempty input with
`sizeRatioThreshold ≤ 1` the large class is nonempty. -/
theorem merge_union_structure (bs : List Region) (distThr : ℕ)
    (sizeRatio : ℚ) :
    (∀ q ∈ passA bs (threshold_area bs sizeRatio) distThr,
      isLargeBox (threshold_area bs sizeRatio) (bs.getD q.1 default) = true ∧
      isSmallBox (threshold_area bs sizeRatio) (bs.getD q.2 default) = true) ∧
    (∀ q ∈ passB bs (threshold_area bs sizeRatio) distThr,
      isLargeBox (threshold_area bs sizeRatio) (bs.getD q.1 default) = true ∧
      isLargeBox (threshold_area bs sizeRatio) (bs.getD q.2 default) = true) ∧
    (∀ q ∈ unionPairs bs (threshold_area bs sizeRatio) distThr,
      ¬ (isSmallBox (threshold_area bs sizeRatio) (bs.getD q.1 default) = true ∧
        isSmallBox (threshold_area bs sizeRatio) (bs.getD q.2 default) = true)) ∧
    (∀ g ∈ groupsOf bs distThr sizeRatio, 2 ≤ g.2.length →
      ∃ b ∈ g.2, isLargeBox (threshold_area bs sizeRatio) b = true) ∧
    (bs ≠ [] → sizeRatio ≤ 1 →
      ∃ b ∈ bs, isLargeBox (threshold_area bs sizeRatio) b = true) := by
  refine ⟨?_, ?_, ?_, ?_, ?_⟩
  · intro q hq
    obtain ⟨_, _, h3, h4⟩ := mem_passA hq
    exact ⟨h3, h4⟩
  · intro q hq
    obtain ⟨_, _, h3, h4⟩ := mem_passB hq
    exact ⟨h3, h4⟩
  · intro q hq hc
    obtain ⟨_, _, h3⟩ := mem_unionPairs hq
    exact not_small_and_large _ _ ⟨hc.1, h3⟩
  · intro g hg h2le
    obtain ⟨r, ms⟩ := g
    obtain ⟨hInvF, _hlenF, hLF⟩ :=
      finalParent_spec bs (threshold_area bs sizeRatio) distThr
    rw [groupsOf, groupsGo_eq_pure bs _ hInvF 0 []] at hg
    have hms := pureGroups_mem_bucket _ bs hg
    have h2le' : 2 ≤ (segBucket
        (rootD (finalParent bs (threshold_area bs sizeRatio) distThr))
        0 bs r).length := by
      rw [← hms]
      exact h2le
    obtain ⟨j1, j2, hj1, hj12, hj2, hr1, hr2⟩ := segBucket_two
      (rootD (finalParent bs (threshold_area bs sizeRatio) distThr))
      r bs 0 h2le'
    rw [Nat.zero_add] at hj2
    have hpick : ∃ j, j < bs.length ∧
        rootD (finalParent bs (threshold_area bs sizeRatio) distThr) j = r ∧
        j ≠ r := by
      by_cases hj1r : j1 = r
      · exact ⟨j2, hj2, hr2, fun he => by omega⟩
      · exact ⟨j1, by omega, hr1, hj1r⟩
    obtain ⟨j, hjlt, hjr, hjne⟩ := hpick
    have hroot_ne : rootD (finalParent bs (threshold_area bs sizeRatio)
        distThr) j ≠ j := by
      rw [hjr]
      exact fun he => hjne (Eq.symm he)
    obtain ⟨k, hklt, hkr, hkP⟩ := hLF j hjlt hroot_ne
    rw [hjr] at hkr
    refine ⟨bs.getD k default, ?_, hkP⟩
    show bs.getD k default ∈ ms
    rw [hms]
    have := segBucket_mem_of
      (rootD (finalParent bs (threshold_area bs sizeRatio) distThr))
      bs 0 k (Nat.zero_le k) (by rw [Nat.zero_add]; exact hklt) hkr
    rw [Nat.sub_zero] at this
    exact this
  · intro hne hle
    have hn : 0 < bs.length := List.length_pos.mpr hne
    have hlen : (sortedAreas bs).length = bs.length := by
      rw [sortedAreas, List.length_insertionSort, List.length_map]
    have hidx : bs.length / 2 < (sortedAreas bs).length := by
      rw [hlen]
      omega
    have hmem : median_area bs ∈ sortedAreas bs := by
      rw [median_area, List.getD_eq_getElem _ _ hidx]
      exact List.getElem_mem hidx
    have hmem2 : median_area bs ∈ bs.map (fun b => b.area) :=
      (List.perm_insertionSort (· ≤ ·) _).mem_iff.mp hmem
    obtain ⟨b, hb, hba⟩ := List.mem_map.mp hmem2
    refine ⟨b, hb, ?_⟩
    rw [isLargeBox, decide_eq_true_eq, ge_iff_le, threshold_area, hba]
    exact mul_le_of_le_one_right (by positivity) hle

/-- Witness for C9: the large class of a concrete nonempty input with
`sizeRatioThreshold = 2/5` is nonempty. -/
theorem merge_union_structure_witness :
    fourRegions ≠ [] ∧ (2/5 : ℚ) ≤ 1 ∧
    ∃ b ∈ fourRegions,
      isLargeBox (threshold_area fourRegions (2/5 : ℚ)) b = true := by
  refine ⟨by decide, by norm_num, ?_⟩
  exact (merge_union_structure fourRegions 80 (2/5 : ℚ)).2.2.2.2
    (by decide) (by norm_num)

/-! ### C7 — order insensitivity of the merge

The union pair set generated from a permuted region list is the
σ-conjugate of the original pair set up to orientation; the union-find
equivalence is the equivalence closure of the pair set; and the grouped
buckets are exactly the classes of that equivalence, so permuting the input
permutes nothing but the internal root labels. -/

theorem centersClose_symm (p q : ℕ × ℕ) (d : ℕ) :
    centersClose p q d = centersClose q p d := by
  rw [centersClose, centersClose,
    show ((p.1 : ℤ) - (q.1 : ℤ)) ^ 2 + ((p.2 : ℤ) - (q.2 : ℤ)) ^ 2
      = ((q.1 : ℤ) - (p.1 : ℤ)) ^ 2 + ((q.2 : ℤ) - (p.2 : ℤ)) ^ 2 from by ring]

theorem enumBoxes_mem_iff {bs : List Region} {i : ℕ} {b : Region} :
    (i, b) ∈ enumBoxes bs ↔ i < bs.length ∧ bs.getD i default = b := by
  constructor
  · intro h
    exact enumBoxes_mem h
  · rintro ⟨h1, h2⟩
    rw [enumBoxes, List.mem_enum_iff_getElem?]
    show bs[i]? = some b
    rw [List.getElem?_eq_getElem h1]
    rw [List.getD_eq_getElem _ _ h1] at h2
    rw [h2]

theorem mem_passA_iff {bs : List Region} {t : ℚ} {distThr : ℕ} {i j : ℕ} :
    (i, j) ∈ passA bs t distThr ↔
      i < bs.length ∧ j < bs.length ∧
      isLargeBox t (bs.getD i default) = true ∧
      isSmallBox t (bs.getD j default) = true ∧
      centersClose (boxCenter (bs.getD i default).bbox)
        (boxCenter (bs.getD j default).bbox) distThr = true := by
  rw [passA, List.mem_flatMap]
  constructor
  · rintro ⟨lb, hlb, h⟩
    rw [List.mem_filter] at hlb
    rw [List.mem_filterMap] at h
    obtain ⟨sb, hsb, hmk⟩ := h
    rw [List.mem_filter] at hsb
    by_cases hdist : centersClose (boxCenter lb.2.bbox)
        (boxCenter sb.2.bbox) distThr = true
    · rw [if_pos hdist] at hmk
      have hij := Option.some.inj hmk
      rw [Prod.mk.injEq] at hij
      obtain ⟨hi, hj⟩ := hij
      subst hi
      subst hj
      obtain ⟨hl1, hl2⟩ := enumBoxes_mem hlb.1
      obtain ⟨hs1, hs2⟩ := enumBoxes_mem hsb.1
      refine ⟨hl1, hs1, ?_, ?_, ?_⟩
      · rw [hl2]; exact hlb.2
      · rw [hs2]; exact hsb.2
      · rw [hl2, hs2]; exact hdist
    · rw [if_neg hdist] at hmk
      cases hmk
  · rintro ⟨h1, h2, h3, h4, h5⟩
    refine ⟨(i, bs.getD i default), ?_, ?_⟩
    · rw [List.mem_filter]
      exact ⟨enumBoxes_mem_iff.mpr ⟨h1, rfl⟩, h3⟩
    · rw [List.mem_filterMap]
      refine ⟨(j, bs.getD j default), ?_, ?_⟩
      · rw [List.mem_filter]
        exact ⟨enumBoxes_mem_iff.mpr ⟨h2, rfl⟩, h4⟩
      · rw [if_pos h5]

theorem mem_passBAux_iff {distThr : ℕ} :
    ∀ {l : List (ℕ × Region)}, List.Pairwise (fun u v => u.1 < v.1) l →
      ∀ {i j : ℕ}, ((i, j) ∈ passBAux distThr l ↔
        ∃ u ∈ l, ∃ v ∈ l, u.1 = i ∧ v.1 = j ∧ u.1 < v.1 ∧
          centersClose (boxCenter u.2.bbox) (boxCenter v.2.bbox) distThr
            = true) := by
  intro l
  induction l with
  | nil =>
      intro _ i j
      constructor
      · intro h; cases h
      · rintro ⟨u, hu, -⟩; cases hu
  | cons a rest ih =>
      intro hpw i j
      obtain ⟨hlt, hpw2⟩ := List.pairwise_cons.mp hpw
      rw [show passBAux distThr (a :: rest)
          = (rest.filterMap (fun lb2 =>
              if centersClose (boxCenter a.2.bbox) (boxCenter lb2.2.bbox)
                  distThr
              then some (a.1, lb2.1) else none)) ++ passBAux distThr rest
          from rfl, List.mem_append]
      constructor
      · rintro (h | h)
        · rw [List.mem_filterMap] at h
          obtain ⟨v, hv, hmk⟩ := h
          by_cases hdist : centersClose (boxCenter a.2.bbox)
              (boxCenter v.2.bbox) distThr = true
          · rw [if_pos hdist] at hmk
            have hij := Option.some.inj hmk
            rw [Prod.mk.injEq] at hij
            obtain ⟨hi, hj⟩ := hij
            exact ⟨a, List.mem_cons_self _ _, v, List.mem_cons_of_mem _ hv,
              hi, hj, hlt v hv, hdist⟩
          · rw [if_neg hdist] at hmk
            cases hmk
        · obtain ⟨u, hu, v, hv, h1, h2, h3, h4⟩ := (ih hpw2).mp h
          exact ⟨u, List.mem_cons_of_mem _ hu, v, List.mem_cons_of_mem _ hv,
            h1, h2, h3, h4⟩
      · rintro ⟨u, hu, v, hv, h1, h2, h3, h4⟩
        rcases List.mem_cons.mp hu with hua | hur
        · subst hua
          rcases List.mem_cons.mp hv with hva | hvr
          · subst hva
            omega
          · left
            rw [List.mem_filterMap]
            refine ⟨v, hvr, ?_⟩
            rw [if_pos h4, h1, h2]
        · rcases List.mem_cons.mp hv with hva | hvr
          · subst hva
            have := hlt u hur
            omega
          · right
            exact (ih hpw2).mpr ⟨u, hur, v, hvr, h1, h2, h3, h4⟩

theorem enumBoxes_pairwise (bs : List Region) :
    List.Pairwise (fun u v => (u : ℕ × Region).1 < v.1) (enumBoxes bs) := by
  have h1 : List.Pairwise (· < ·) ((enumBoxes bs).map Prod.fst) := by
    rw [enumBoxes, List.enum_map_fst]
    exact List.pairwise_lt_range _
  exact (List.pairwise_map).mp h1

theorem mem_passB_iff {bs : List Region} {t : ℚ} {distThr : ℕ} {i j : ℕ} :
    (i, j) ∈ passB bs t distThr ↔
      i < bs.length ∧ j < bs.length ∧ i < j ∧
      isLargeBox t (bs.getD i default) = true ∧
      isLargeBox t (bs.getD j default) = true ∧
      centersClose (boxCenter (bs.getD i default).bbox)
        (boxCenter (bs.getD j default).bbox) distThr = true := by
  rw [passB, mem_passBAux_iff
    (List.Pairwise.filter _ (enumBoxes_pairwise bs))]
  constructor
  · rintro ⟨u, hu, v, hv, hui, hvj, hlt, hdist⟩
    rw [List.mem_filter] at hu hv
    obtain ⟨hu1, hu2⟩ := enumBoxes_mem hu.1
    obtain ⟨hv1, hv2⟩ := enumBoxes_mem hv.1
    subst hui
    subst hvj
    refine ⟨hu1, hv1, hlt, ?_, ?_, ?_⟩
    · rw [hu2]; exact hu.2
    · rw [hv2]; exact hv.2
    · rw [hu2, hv2]; exact hdist
  · rintro ⟨h1, h2, hlt, h3, h4, h5⟩
    refine ⟨(i, bs.getD i default), ?_, (j, bs.getD j default), ?_,
      rfl, rfl, hlt, h5⟩
    · rw [List.mem_filter]
      exact ⟨enumBoxes_mem_iff.mpr ⟨h1, rfl⟩, h3⟩
    · rw [List.mem_filter]
      exact ⟨enumBoxes_mem_iff.mpr ⟨h2, rfl⟩, h4⟩

theorem eqvGen_lift {α : Type} {R S : α → α → Prop}
    (h : ∀ a b, R a b → Relation.EqvGen S a b) :
    ∀ {a b : α}, Relation.EqvGen R a b → Relation.EqvGen S a b := by
  intro a b hab
  induction hab with
  | rel x y hxy => exact h x y hxy
  | refl x => exact Relation.EqvGen.refl x
  | symm x y _ ih => exact Relation.EqvGen.symm x y ih
  | trans x y z _ _ ih1 ih2 => exact Relation.EqvGen.trans x y z ih1 ih2

/-- After folding the union calls, two indices share a root exactly when
they are related by the equivalence closure of the initial root equality
joined with the union pairs. -/
theorem foldl_unionC_eqv :
    ∀ (pairs : List (ℕ × ℕ)) (p : List ℕ), InvP p →
    (∀ q ∈ pairs, q.1 < p.length ∧ q.2 < p.length) →
    ∀ z w, (rootD (pairs.foldl (fun pp q => unionC pp q.1 q.2) p) z
        = rootD (pairs.foldl (fun pp q => unionC pp q.1 q.2) p) w ↔
      Relation.EqvGen
        (fun a b => rootD p a = rootD p b ∨ (a, b) ∈ pairs) z w) := by
  intro pairs
  induction pairs with
  | nil =>
      intro p _hInv _ z w
      constructor
      · intro h
        exact Relation.EqvGen.rel z w (Or.inl h)
      · intro h
        induction h with
        | rel x y hxy =>
            rcases hxy with h | h
            · exact h
            · cases h
        | refl x => rfl
        | symm x y _ ih => exact ih.symm
        | trans x y zz _ _ ih1 ih2 => exact ih1.trans ih2
  | cons q rest ih =>
      intro p hInv hq z w
      obtain ⟨hq1, hq2⟩ := hq q (List.mem_cons_self _ _)
      obtain ⟨hulen, huinv, huroots⟩ := unionC_spec hInv hq1 hq2
      have hrest : ∀ q' ∈ rest, q'.1 < (unionC p q.1 q.2).length ∧
          q'.2 < (unionC p q.1 q.2).length := by
        intro q' hq'
        obtain ⟨h1, h2⟩ := hq q' (List.mem_cons_of_mem _ hq')
        rw [hulen]
        exact ⟨h1, h2⟩
      rw [List.foldl_cons, ih (unionC p q.1 q.2) huinv hrest z w]
      constructor
      · apply eqvGen_lift
        intro a b hab
        rcases hab with hab | hab
        · rw [huroots a, huroots b] at hab
          by_cases hca : rootD p a = rootD p q.1
          · by_cases hcb : rootD p b = rootD p q.1
            · exact Relation.EqvGen.rel a b (Or.inl (hca.trans hcb.symm))
            · rw [if_pos hca, if_neg hcb] at hab
              refine Relation.EqvGen.trans a q.1 b
                (Relation.EqvGen.rel _ _ (Or.inl hca)) ?_
              refine Relation.EqvGen.trans q.1 q.2 b
                (Relation.EqvGen.rel _ _
                  (Or.inr (List.mem_cons_self _ _))) ?_
              exact Relation.EqvGen.rel _ _ (Or.inl hab)
          · by_cases hcb : rootD p b = rootD p q.1
            · rw [if_neg hca, if_pos hcb] at hab
              refine Relation.EqvGen.trans a q.2 b
                (Relation.EqvGen.rel _ _ (Or.inl hab)) ?_
              refine Relation.EqvGen.trans q.2 q.1 b
                (Relation.EqvGen.symm _ _
                  (Relation.EqvGen.rel _ _
                    (Or.inr (List.mem_cons_self _ _)))) ?_
              exact Relation.EqvGen.rel _ _ (Or.inl hcb.symm)
            · rw [if_neg hca, if_neg hcb] at hab
              exact Relation.EqvGen.rel a b (Or.inl hab)
        · exact Relation.EqvGen.rel a b
            (Or.inr (List.mem_cons_of_mem _ hab))
      · apply eqvGen_lift
        intro a b hab
        rcases hab with hab | hab
        · refine Relation.EqvGen.rel a b (Or.inl ?_)
          rw [huroots a, huroots b]
          by_cases hca : rootD p a = rootD p q.1
          · rw [if_pos hca, if_pos (hab.symm.trans hca)]
          · rw [if_neg hca, if_neg (fun hcb => hca (hab.trans hcb)), hab]
        · rcases List.mem_cons.mp hab with hq' | hq'
          · refine Relation.EqvGen.rel a b (Or.inl ?_)
            have ha : a = q.1 := congrArg Prod.fst hq'
            have hb : b = q.2 := congrArg Prod.snd hq'
            rw [huroots a, huroots b, ha, hb, if_pos rfl]
            by_cases h2 : rootD p q.2 = rootD p q.1
            · rw [if_pos h2]
            · rw [if_neg h2]
          · exact Relation.EqvGen.rel a b (Or.inr hq')

/-- Two indices share a final root exactly when the union pair list
connects them. -/
theorem finalParent_eqv (bs : List Region) (t : ℚ) (distThr : ℕ) :
    ∀ z w, (rootD (finalParent bs t distThr) z
        = rootD (finalParent bs t distThr) w ↔
      Relation.EqvGen
        (fun a b => (a, b) ∈ unionPairs bs t distThr) z w) := by
  intro z w
  have hq : ∀ q ∈ unionPairs bs t distThr,
      q.1 < (List.range bs.length).length ∧
      q.2 < (List.range bs.length).length := by
    intro q hqm
    obtain ⟨h1, h2, _⟩ := mem_unionPairs hqm
    rw [List.length_range]
    exact ⟨h1, h2⟩
  rw [show finalParent bs t distThr
    = (unionPairs bs t distThr).foldl (fun pp q => unionC pp q.1 q.2)
        (List.range bs.length) from rfl,
    foldl_unionC_eqv (unionPairs bs t distThr) (List.range bs.length)
      (InvP_range _) hq z w]
  constructor
  · apply eqvGen_lift
    intro a b hab
    rcases hab with hab | hab
    · rw [rootD_range, rootD_range] at hab
      subst hab
      exact Relation.EqvGen.refl a
    · exact Relation.EqvGen.rel a b hab
  · apply eqvGen_lift
    intro a b hab
    exact Relation.EqvGen.rel a b (Or.inr hab)

theorem natPermAux_lt (n : ℕ) (σf : Fin n → Fin n) {i : ℕ} (h : i < n) :
    natPermAux n σf i < n := by
  rw [natPermAux, dif_pos h]
  exact (σf ⟨i, h⟩).isLt

theorem natPermAux_lt_iff (n : ℕ) (σf : Fin n → Fin n) (i : ℕ) :
    natPermAux n σf i < n ↔ i < n := by
  constructor
  · intro h
    by_contra hc
    rw [natPermAux, dif_neg hc] at h
    exact hc h
  · exact natPermAux_lt n σf

theorem natPermAux_inv (n : ℕ) (σ : Equiv.Perm (Fin n)) (i : ℕ) :
    natPermAux n (⇑σ.symm) (natPermAux n (⇑σ) i) = i := by
  by_cases h : i < n
  · have hin : natPermAux n (⇑σ) i = (σ ⟨i, h⟩).val := by
      rw [natPermAux, dif_pos h]
    rw [hin, natPermAux, dif_pos (σ ⟨i, h⟩).isLt]
    have heta : (⟨(σ ⟨i, h⟩).val, (σ ⟨i, h⟩).isLt⟩ : Fin n) = σ ⟨i, h⟩ := rfl
    rw [heta, Equiv.symm_apply_apply]
  · have hin : natPermAux n (⇑σ) i = i := by
      rw [natPermAux, dif_neg h]
    rw [hin, natPermAux, dif_neg h]

theorem natPermAux_inv2 (n : ℕ) (σ : Equiv.Perm (Fin n)) (i : ℕ) :
    natPermAux n (⇑σ) (natPermAux n (⇑σ.symm) i) = i := by
  have := natPermAux_inv n σ.symm i
  rwa [Equiv.symm_symm] at this

theorem permuted_length (bs : List Region) (σ : Equiv.Perm (Fin bs.length)) :
    (List.ofFn (fun i => bs.get (σ i))).length = bs.length :=
  List.length_ofFn _

theorem permuted_getD (bs : List Region) (σ : Equiv.Perm (Fin bs.length))
    {j : ℕ} (h : j < bs.length) :
    (List.ofFn (fun i => bs.get (σ i))).getD j default
      = bs.getD (natPermAux bs.length (⇑σ) j) default := by
  have hj2 : j < (List.ofFn (fun i => bs.get (σ i))).length := by
    rw [List.length_ofFn]
    exact h
  rw [List.getD_eq_getElem _ _ hj2, List.getElem_ofFn]
  rw [natPermAux, dif_pos h,
    List.getD_eq_getElem _ _ (σ ⟨j, h⟩).isLt, List.get_eq_getElem]

theorem permuted_perm (bs : List Region) (σ : Equiv.Perm (Fin bs.length)) :
    (List.ofFn (fun i => bs.get (σ i))).Perm bs := by
  rw [← Multiset.coe_eq_coe, ← Fin.univ_val_map,
    show (fun i => bs.get (σ i)) = bs.get ∘ ⇑σ from rfl,
    ← Multiset.map_map, Multiset.map_univ_val_equiv σ, Fin.univ_val_map,
    List.ofFn_get]

theorem sortedAreas_perm_eq {l1 l2 : List Region} (h : l1.Perm l2) :
    sortedAreas l1 = sortedAreas l2 := by
  refine List.eq_of_perm_of_sorted ?_ (List.sorted_insertionSort (· ≤ ·) _)
    (List.sorted_insertionSort (· ≤ ·) _)
  exact (List.perm_insertionSort (· ≤ ·) _).trans
    ((h.map _).trans (List.perm_insertionSort (· ≤ ·) _).symm)

theorem permuted_threshold (bs : List Region)
    (σ : Equiv.Perm (Fin bs.length)) (sizeRatio : ℚ) :
    threshold_area (List.ofFn (fun i => bs.get (σ i))) sizeRatio
      = threshold_area bs sizeRatio := by
  rw [threshold_area, threshold_area, median_area, median_area,
    sortedAreas_perm_eq (permuted_perm bs σ),
    (permuted_perm bs σ).length_eq]

theorem permuted_mem_passA (bs : List Region)
    (σ : Equiv.Perm (Fin bs.length)) (t : ℚ) (distThr : ℕ) (i j : ℕ) :
    ((i, j) ∈ passA (List.ofFn (fun i => bs.get (σ i))) t distThr) ↔
      (natPermAux bs.length (⇑σ) i, natPermAux bs.length (⇑σ) j)
        ∈ passA bs t distThr := by
  rw [mem_passA_iff, mem_passA_iff, permuted_length]
  constructor
  · rintro ⟨h1, h2, h3, h4, h5⟩
    rw [permuted_getD bs σ h1] at h3
    rw [permuted_getD bs σ h2] at h4
    rw [permuted_getD bs σ h1, permuted_getD bs σ h2] at h5
    exact ⟨natPermAux_lt _ _ h1, natPermAux_lt _ _ h2, h3, h4, h5⟩
  · rintro ⟨h1, h2, h3, h4, h5⟩
    have hi : i < bs.length := (natPermAux_lt_iff _ _ _).mp h1
    have hj : j < bs.length := (natPermAux_lt_iff _ _ _).mp h2
    rw [permuted_getD bs σ hi, permuted_getD bs σ hj]
    exact ⟨hi, hj, h3, h4, h5⟩

theorem permuted_mem_passB (bs : List Region)
    (σ : Equiv.Perm (Fin bs.length)) (t : ℚ) (distThr : ℕ) (i j : ℕ) :
    ((i, j) ∈ passB (List.ofFn (fun i => bs.get (σ i))) t distThr) ↔
      i < j ∧ i < bs.length ∧ j < bs.length ∧
      isLargeBox t (bs.getD (natPermAux bs.length (⇑σ) i) default) = true ∧
      isLargeBox t (bs.getD (natPermAux bs.length (⇑σ) j) default) = true ∧
      centersClose
        (boxCenter (bs.getD (natPermAux bs.length (⇑σ) i) default).bbox)
        (boxCenter (bs.getD (natPermAux bs.length (⇑σ) j) default).bbox)
        distThr = true := by
  rw [mem_passB_iff, permuted_length]
  constructor
  · rintro ⟨h1, h2, hlt, h3, h4, h5⟩
    rw [permuted_getD bs σ h1] at h3
    rw [permuted_getD bs σ h2] at h4
    rw [permuted_getD bs σ h1, permuted_getD bs σ h2] at h5
    exact ⟨hlt, h1, h2, h3, h4, h5⟩
  · rintro ⟨hlt, h1, h2, h3, h4, h5⟩
    rw [permuted_getD bs σ h1, permuted_getD bs σ h2]
    exact ⟨h1, h2, hlt, h3, h4, h5⟩

theorem eqvGen_map {α β : Type} {R : α → α → Prop} {S : β → β → Prop}
    (f : α → β) (h : ∀ a b, R a b → Relation.EqvGen S (f a) (f b)) :
    ∀ {a b : α}, Relation.EqvGen R a b → Relation.EqvGen S (f a) (f b) := by
  intro a b hab
  induction hab with
  | rel x y hxy => exact h x y hxy
  | refl x => exact Relation.EqvGen.refl (f x)
  | symm x y _ ih => exact Relation.EqvGen.symm _ _ ih
  | trans x y z _ _ ih1 ih2 => exact Relation.EqvGen.trans _ _ _ ih1 ih2

theorem permuted_unionPairs_to (bs : List Region)
    (σ : Equiv.Perm (Fin bs.length)) (t : ℚ) (distThr : ℕ) (i j : ℕ)
    (h : (i, j) ∈ unionPairs (List.ofFn (fun i => bs.get (σ i))) t distThr) :
    Relation.EqvGen (fun a b => (a, b) ∈ unionPairs bs t distThr)
      (natPermAux bs.length (⇑σ) i) (natPermAux bs.length (⇑σ) j) := by
  rw [unionPairs, List.mem_append] at h
  rcases h with h | h
  · refine Relation.EqvGen.rel _ _ ?_
    rw [unionPairs, List.mem_append]
    exact Or.inl ((permuted_mem_passA bs σ t distThr i j).mp h)
  · obtain ⟨hlt, h1, h2, h3, h4, h5⟩ :=
      (permuted_mem_passB bs σ t distThr i j).mp h
    have hane : natPermAux bs.length (⇑σ) i ≠ natPermAux bs.length (⇑σ) j := by
      intro he
      have hinj := congrArg (natPermAux bs.length (⇑σ.symm)) he
      rw [natPermAux_inv, natPermAux_inv] at hinj
      omega
    rcases Nat.lt_or_ge (natPermAux bs.length (⇑σ) i)
        (natPermAux bs.length (⇑σ) j) with hab | hab
    · refine Relation.EqvGen.rel _ _ ?_
      rw [unionPairs, List.mem_append]
      right
      rw [mem_passB_iff]
      exact ⟨natPermAux_lt _ _ h1, natPermAux_lt _ _ h2, hab, h3, h4, h5⟩
    · have hba : natPermAux bs.length (⇑σ) j < natPermAux bs.length (⇑σ) i :=
        lt_of_le_of_ne hab (fun he => hane he.symm)
      refine Relation.EqvGen.symm _ _ (Relation.EqvGen.rel _ _ ?_)
      rw [unionPairs, List.mem_append]
      right
      rw [mem_passB_iff]
      refine ⟨natPermAux_lt _ _ h2, natPermAux_lt _ _ h1, hba, h4, h3, ?_⟩
      rw [centersClose_symm]
      exact h5

theorem permuted_unionPairs_from (bs : List Region)
    (σ : Equiv.Perm (Fin bs.length)) (t : ℚ) (distThr : ℕ) (a b : ℕ)
    (h : (a, b) ∈ unionPairs bs t distThr) :
    Relation.EqvGen (fun u v =>
        (u, v) ∈ unionPairs (List.ofFn (fun i => bs.get (σ i))) t distThr)
      (natPermAux bs.length (⇑σ.symm) a)
      (natPermAux bs.length (⇑σ.symm) b) := by
  have hφa : natPermAux bs.length (⇑σ) (natPermAux bs.length (⇑σ.symm) a)
      = a := natPermAux_inv2 bs.length σ a
  have hφb : natPermAux bs.length (⇑σ) (natPermAux bs.length (⇑σ.symm) b)
      = b := natPermAux_inv2 bs.length σ b
  rw [unionPairs, List.mem_append] at h
  rcases h with h | h
  · refine Relation.EqvGen.rel _ _ ?_
    rw [unionPairs, List.mem_append]
    left
    rw [permuted_mem_passA bs σ t distThr, hφa, hφb]
    exact h
  · obtain ⟨h1, h2, hlt, h3, h4, h5⟩ := mem_passB_iff.mp h
    have hτa : natPermAux bs.length (⇑σ.symm) a < bs.length :=
      natPermAux_lt _ _ h1
    have hτb : natPermAux bs.length (⇑σ.symm) b < bs.length :=
      natPermAux_lt _ _ h2
    have hane : natPermAux bs.length (⇑σ.symm) a
        ≠ natPermAux bs.length (⇑σ.symm) b := by
      intro he
      have hinj := congrArg (natPermAux bs.length (⇑σ)) he
      rw [hφa, hφb] at hinj
      omega
    rcases Nat.lt_or_ge (natPermAux bs.length (⇑σ.symm) a)
        (natPermAux bs.length (⇑σ.symm) b) with hab | hab
    · refine Relation.EqvGen.rel _ _ ?_
      rw [unionPairs, List.mem_append]
      right
      rw [permuted_mem_passB bs σ t distThr, hφa, hφb]
      exact ⟨hab, hτa, hτb, h3, h4, h5⟩
    · have hba := lt_of_le_of_ne hab (fun he => hane he.symm)
      refine Relation.EqvGen.symm _ _ (Relation.EqvGen.rel _ _ ?_)
      rw [unionPairs, List.mem_append]
      right
      rw [permuted_mem_passB bs σ t distThr, hφb, hφa]
      refine ⟨hba, hτb, hτa, h4, h3, ?_⟩
      rw [centersClose_symm]
      exact h5

/-- Permuting the input conjugates the final union-find classes by the
index permutation. -/
theorem permuted_class_iff (bs : List Region)
    (σ : Equiv.Perm (Fin bs.length)) (t : ℚ) (distThr : ℕ) (i j : ℕ) :
    (rootD (finalParent (List.ofFn (fun i => bs.get (σ i))) t distThr) i
      = rootD (finalParent (List.ofFn (fun i => bs.get (σ i))) t distThr) j)
    ↔ (rootD (finalParent bs t distThr) (natPermAux bs.length (⇑σ) i)
      = rootD (finalParent bs t distThr) (natPermAux bs.length (⇑σ) j)) := by
  rw [finalParent_eqv, finalParent_eqv]
  constructor
  · exact eqvGen_map (natPermAux bs.length (⇑σ))
      (permuted_unionPairs_to bs σ t distThr)
  · intro h
    have h2 := eqvGen_map (natPermAux bs.length (⇑σ.symm))
      (permuted_unionPairs_from bs σ t distThr) h
    rwa [natPermAux_inv, natPermAux_inv] at h2

/-! #### Order-insensitivity of the merge (C7): bucket and key machinery -/

/-- A segment bucket is the filtered index range mapped through `getD`. -/
theorem segBucket_eq_filter (ρ : ℕ → ℕ) (r : ℕ) :
    ∀ (rest : List Region) (i : ℕ),
      segBucket ρ i rest r
        = ((List.range' i rest.length).filter (fun j => ρ j = r)).map
            (fun j => rest.getD (j - i) default) := by
  intro rest
  induction rest with
  | nil => intro i; rfl
  | cons b rest ih =>
      intro i
      rw [show segBucket ρ i (b :: rest) r
          = (if ρ i = r then [b] else []) ++ segBucket ρ (i + 1) rest r
          from rfl]
      rw [show (b :: rest).length = rest.length + 1 from rfl,
        List.range'_succ, List.filter_cons]
      by_cases hr : ρ i = r
      · rw [if_pos hr, if_pos (decide_eq_true hr), List.map_cons]
        have hhead : (b :: rest).getD (i - i) default = b := by
          rw [Nat.sub_self, List.getD_cons_zero]
        rw [hhead, ih (i + 1)]
        have htail : ∀ j ∈ (List.range' (i + 1) rest.length).filter
            (fun j => ρ j = r),
            (b :: rest).getD (j - i) default = rest.getD (j - (i + 1)) default := by
          intro j hj
          have hj1 : i + 1 ≤ j :=
            (List.mem_range'_1.mp (List.mem_of_mem_filter hj)).1
          have h2 : j - i = (j - (i + 1)) + 1 := by omega
          rw [h2, List.getD_cons_succ]
        rw [List.map_congr_left htail]
        rfl
      · rw [if_neg hr, if_neg (by simp [decide_eq_false hr]), List.nil_append,
          ih (i + 1)]
        apply List.map_congr_left
        intro j hj
        have hj1 : i + 1 ≤ j :=
          (List.mem_range'_1.mp (List.mem_of_mem_filter hj)).1
        have h2 : j - i = (j - (i + 1)) + 1 := by omega
        rw [h2, List.getD_cons_succ]

/-- A root with a nonempty bucket is among the keys of the association
list. -/
theorem lookupGroup_ne_nil_mem :
    ∀ (gs : List (ℕ × List Region)) (r : ℕ),
      lookupGroup gs r ≠ [] → r ∈ gs.map Prod.fst := by
  intro gs
  induction gs with
  | nil => intro r h; exact absurd rfl h
  | cons g rest ih =>
      obtain ⟨k, ms⟩ := g
      intro r h
      simp only [lookupGroup] at h
      by_cases hk : k = r
      · rw [List.map_cons]
        exact List.mem_cons.mpr (Or.inl hk.symm)
      · rw [if_neg hk] at h
        exact List.mem_cons_of_mem _ (ih r h)

/-- `pureGroups` keeps every bucket nonempty. -/
theorem pureGroups_ne_nil (ρ : ℕ → ℕ) :
    ∀ (bs : List Region) (i : ℕ) (gs : List (ℕ × List Region)),
      (∀ g ∈ gs, g.2 ≠ []) → ∀ g ∈ pureGroups ρ i bs gs, g.2 ≠ [] := by
  intro bs
  induction bs with
  | nil => intro i gs h; exact h
  | cons b rest ih =>
      intro i gs h
      exact ih (i + 1) (addToGroups gs (ρ i) b) (addToGroups_ne_nil gs _ b h)

/-- The keys of a state-free grouping run are exactly the roots hit by an
index below the list length. -/
theorem pureGroups_keys_iff (ρ : ℕ → ℕ) (bs : List Region) (r : ℕ) :
    r ∈ (pureGroups ρ 0 bs []).map Prod.fst ↔
      ∃ j, j < bs.length ∧ ρ j = r := by
  constructor
  · intro h
    obtain ⟨g, hg, hgr⟩ := List.mem_map.mp h
    have hne : g.2 ≠ [] :=
      pureGroups_ne_nil ρ bs 0 [] (by intro g hg2; cases hg2) g hg
    have hbucket : g.2 = segBucket ρ 0 bs g.1 :=
      pureGroups_mem_bucket ρ bs
        (show (g.1, g.2) ∈ pureGroups ρ 0 bs [] by rw [Prod.mk.eta]; exact hg)
    rw [hbucket] at hne
    have hlen : 1 ≤ (segBucket ρ 0 bs g.1).length := by
      have := List.length_pos.mpr hne
      omega
    obtain ⟨j, _, hj2, hj3⟩ := segBucket_one ρ g.1 bs 0 hlen
    refine ⟨j, by omega, ?_⟩
    rw [hj3]
    exact hgr
  · rintro ⟨j, hj, hρ⟩
    have hmem : bs.getD (j - 0) default ∈ segBucket ρ 0 bs r :=
      segBucket_mem_of ρ bs 0 j (Nat.zero_le j) (by omega) hρ
    have hlk : lookupGroup (pureGroups ρ 0 bs []) r ≠ [] := by
      rw [pureGroups_lookup ρ bs 0 [] r]
      intro he
      rw [show lookupGroup [] r = [] from rfl, List.nil_append] at he
      rw [he] at hmem
      cases hmem
    exact lookupGroup_ne_nil_mem _ r hlk

/-- The multiset of per-group values of a state-free grouping run is the
bucket function mapped over the finite set of reached roots. -/
theorem pureGroups_map_eq {β : Type} (F : List Region → β) (ρ : ℕ → ℕ)
    (bs : List Region) :
    (↑((pureGroups ρ 0 bs []).map (fun g => F g.2)) : Multiset β)
      = Multiset.map (fun r => F (segBucket ρ 0 bs r))
          (((Finset.range bs.length).image ρ).val) := by
  have h1 : (pureGroups ρ 0 bs []).map (fun g => F g.2)
      = (pureGroups ρ 0 bs []).map (fun g => F (segBucket ρ 0 bs g.1)) := by
    apply List.map_congr_left
    intro g hg
    rw [pureGroups_mem_bucket ρ bs
      (show (g.1, g.2) ∈ pureGroups ρ 0 bs [] by rw [Prod.mk.eta]; exact hg)]
  have h2 : (fun g : ℕ × List Region => F (segBucket ρ 0 bs g.1))
      = (fun r => F (segBucket ρ 0 bs r)) ∘ Prod.fst := rfl
  rw [h1, h2, ← List.map_map]
  have hnd : ((pureGroups ρ 0 bs []).map Prod.fst).Nodup :=
    pureGroups_keys_nodup ρ bs 0 [] (by simp)
  have hfs : (⟨(↑((pureGroups ρ 0 bs []).map Prod.fst) : Multiset ℕ),
      Multiset.coe_nodup.mpr hnd⟩ : Finset ℕ)
      = (Finset.range bs.length).image ρ := by
    apply Finset.ext
    intro a
    rw [Finset.mem_mk, Multiset.mem_coe, pureGroups_keys_iff]
    constructor
    · rintro ⟨j, hj, hρ⟩
      exact Finset.mem_image.mpr ⟨j, Finset.mem_range.mpr hj, hρ⟩
    · intro h
      obtain ⟨j, hj, hρ⟩ := Finset.mem_image.mp h
      exact ⟨j, Finset.mem_range.mp hj, hρ⟩
  have hK : (↑((pureGroups ρ 0 bs []).map Prod.fst) : Multiset ℕ)
      = ((Finset.range bs.length).image ρ).val :=
    congrArg Finset.val hfs
  calc (↑(List.map (fun r => F (segBucket ρ 0 bs r))
        ((pureGroups ρ 0 bs []).map Prod.fst)) : Multiset β)
      = Multiset.map (fun r => F (segBucket ρ 0 bs r))
          (↑((pureGroups ρ 0 bs []).map Prod.fst)) := rfl
    _ = Multiset.map (fun r => F (segBucket ρ 0 bs r))
          (((Finset.range bs.length).image ρ).val) := by rw [hK]

/-- `min` over a list only depends on its multiset of members. -/
theorem listMin_perm {l1 l2 : List ℕ} (h : l1.Perm l2) :
    listMin l1 = listMin l2 := by
  by_cases hne : l1 = []
  · subst hne
    rw [h.symm.eq_nil]
  · have hne2 : l2 ≠ [] := fun he => hne (by rw [he] at h; exact h.eq_nil)
    apply le_antisymm
    · exact le_listMin l2 _ (fun x hx => listMin_le l1 x (h.mem_iff.mpr hx))
        hne2
    · exact le_listMin l1 _ (fun x hx => listMin_le l2 x (h.mem_iff.mp hx))
        hne

/-- `max` over a list only depends on its multiset of members. -/
theorem listMax_perm {l1 l2 : List ℕ} (h : l1.Perm l2) :
    listMax l1 = listMax l2 := by
  by_cases hne : l1 = []
  · subst hne
    rw [h.symm.eq_nil]
  · have hne2 : l2 ≠ [] := fun he => hne (by rw [he] at h; exact h.eq_nil)
    apply le_antisymm
    · exact listMax_le l1 _ (fun x hx => le_listMax l2 x (h.mem_iff.mp hx))
        hne
    · exact listMax_le l2 _ (fun x hx => le_listMax l1 x (h.mem_iff.mpr hx))
        hne2

/-- Merging a group gives the same box for any reordering of the group:
mins, maxes and the member count are order-free. -/
theorem mergeGroup_perm {g1 g2 : List Region} (h : g1.Perm g2) :
    mergeGroup g1 = mergeGroup g2 := by
  have hx : (g1.flatMap (fun b => [b.bbox.x, b.bbox.x + b.bbox.w])).Perm
      (g2.flatMap (fun b => [b.bbox.x, b.bbox.x + b.bbox.w])) :=
    List.Perm.flatMap_right _ h
  have hy : (g1.flatMap (fun b => [b.bbox.y, b.bbox.y + b.bbox.h])).Perm
      (g2.flatMap (fun b => [b.bbox.y, b.bbox.y + b.bbox.h])) :=
    List.Perm.flatMap_right _ h
  simp only [mergeGroup]
  rw [listMin_perm hx, listMin_perm hy, listMax_perm hx, listMax_perm hy,
    h.length_eq]

/-- `merge_nearby_small_boxes` is the per-group merge mapped over the
groups (also for the empty input, where both sides are empty). -/
theorem merge_eq_map (bs : List Region) (distThr : ℕ) (sizeRatio : ℚ) :
    merge_nearby_small_boxes bs distThr sizeRatio
      = (groupsOf bs distThr sizeRatio).map (fun g => mergeGroup g.2) := by
  cases bs with
  | nil => rfl
  | cons b rest => rfl

/-- Conjugating the root map by an index bijection carries each bucket of
the permuted run to the bucket of the original run at the conjugated
root, as a multiset. -/
theorem bucket_conj (n : ℕ) (ρ1 ρ2 φ τ : ℕ → ℕ) (bs bs2 : List Region)
    (hlen : bs.length = n) (hlen2 : bs2.length = n)
    (hφlt : ∀ i, i < n → φ i < n) (hτlt : ∀ i, i < n → τ i < n)
    (hφτ : ∀ i, φ (τ i) = i) (hτφ : ∀ i, τ (φ i) = i)
    (hget : ∀ j, j < n → bs2.getD j default = bs.getD (φ j) default)
    (hcl : ∀ i j, (ρ2 i = ρ2 j ↔ ρ1 (φ i) = ρ1 (φ j)))
    (r : ℕ) (_hr : r < n) (hid : ρ2 r = r) :
    (↑(segBucket ρ2 0 bs2 r) : Multiset Region)
      = ↑(segBucket ρ1 0 bs (ρ1 (φ r))) := by
  rw [segBucket_eq_filter ρ2 r bs2 0, segBucket_eq_filter ρ1 (ρ1 (φ r)) bs 0]
  simp only [← List.range_eq_range', Nat.sub_zero]
  rw [hlen, hlen2]
  have hmap2 : ((List.range n).filter (fun j => ρ2 j = r)).map
        (fun j => bs2.getD j default)
      = (((List.range n).filter (fun j => ρ2 j = r)).map φ).map
        (fun j => bs.getD j default) := by
    rw [List.map_map]
    apply List.map_congr_left
    intro j hj
    have hjn : j < n := List.mem_range.mp (List.mem_of_mem_filter hj)
    exact hget j hjn
  rw [hmap2, Multiset.coe_eq_coe]
  apply List.Perm.map
  have hnd1 : ((((List.range n).filter (fun j => ρ2 j = r)).map φ)).Nodup := by
    apply List.Nodup.map_on
    · intro x _ y _ he
      have h := congrArg τ he
      rwa [hτφ x, hτφ y] at h
    · exact (List.nodup_range n).filter _
  have hnd2 : ((List.range n).filter (fun j => ρ1 j = ρ1 (φ r))).Nodup :=
    (List.nodup_range n).filter _
  rw [List.perm_ext_iff_of_nodup hnd1 hnd2]
  intro k
  simp only [List.mem_map, List.mem_filter, List.mem_range,
    decide_eq_true_eq]
  constructor
  · rintro ⟨j, ⟨hjn, hρj⟩, rfl⟩
    refine ⟨hφlt j hjn, ?_⟩
    exact (hcl j r).mp (by rw [hρj, hid])
  · rintro ⟨hkn, hρk⟩
    refine ⟨τ k, ⟨hτlt k hkn, ?_⟩, hφτ k⟩
    have h2 : ρ1 (φ (τ k)) = ρ1 (φ r) := by
      rw [hφτ k]
      exact hρk
    have h3 := (hcl (τ k) r).mpr h2
    rw [hid] at h3
    exact h3

/-- The reached roots of the original run are the image under the
conjugating map of the reached roots of the permuted run. -/
theorem keys_conj (n : ℕ) (ρ1 ρ2 φ τ : ℕ → ℕ)
    (hφlt : ∀ i, i < n → φ i < n) (hτlt : ∀ i, i < n → τ i < n)
    (hφτ : ∀ i, φ (τ i) = i)
    (hρ2lt : ∀ j, j < n → ρ2 j < n)
    (hρ2idem : ∀ j, ρ2 (ρ2 j) = ρ2 j)
    (hcl : ∀ i j, (ρ2 i = ρ2 j ↔ ρ1 (φ i) = ρ1 (φ j))) :
    (Finset.range n).image ρ1
      = ((Finset.range n).image ρ2).image (fun r => ρ1 (φ r)) := by
  apply Finset.ext
  intro a
  simp only [Finset.mem_image, Finset.mem_range]
  constructor
  · rintro ⟨k, hk, rfl⟩
    refine ⟨ρ2 (τ k), ⟨τ k, hτlt k hk, rfl⟩, ?_⟩
    have h1 : ρ2 (ρ2 (τ k)) = ρ2 (τ k) := hρ2idem (τ k)
    have h2 := (hcl (ρ2 (τ k)) (τ k)).mp h1
    rwa [hφτ k] at h2
  · rintro ⟨r, ⟨j, hj, rfl⟩, rfl⟩
    exact ⟨φ (ρ2 j), hφlt _ (hρ2lt j hj), rfl⟩

/-- The conjugating map is injective on the reached roots of the permuted
run. -/
theorem keys_conj_injOn (n : ℕ) (ρ1 ρ2 φ : ℕ → ℕ)
    (hρ2idem : ∀ j, ρ2 (ρ2 j) = ρ2 j)
    (hcl : ∀ i j, (ρ2 i = ρ2 j ↔ ρ1 (φ i) = ρ1 (φ j))) :
    Set.InjOn (fun r => ρ1 (φ r)) ↑((Finset.range n).image ρ2) := by
  intro r hr r' hr' he
  simp only [Finset.mem_coe, Finset.mem_image, Finset.mem_range] at hr hr'
  obtain ⟨j, _, hj2⟩ := hr
  obtain ⟨j', _, hj2'⟩ := hr'
  have h1 := (hcl r r').mpr he
  have hr1 : ρ2 r = r := by
    rw [← hj2]
    exact hρ2idem j
  have hr2 : ρ2 r' = r' := by
    rw [← hj2']
    exact hρ2idem j'
  rw [hr1, hr2] at h1
  exact h1

/-- Any per-bucket value respected by the conjugation gives equal value
multisets for the two state-free grouping runs. -/
theorem pure_groups_conj {β : Type} (G : List Region → β) (n : ℕ)
    (ρ1 ρ2 θ : ℕ → ℕ) (bs bs2 : List Region)
    (hlen : bs.length = n) (hlen2 : bs2.length = n)
    (hkeys : (Finset.range n).image ρ1
      = ((Finset.range n).image ρ2).image θ)
    (hinj : Set.InjOn θ ↑((Finset.range n).image ρ2))
    (hG : ∀ r ∈ (Finset.range n).image ρ2,
        G (segBucket ρ2 0 bs2 r) = G (segBucket ρ1 0 bs (θ r))) :
    (↑((pureGroups ρ2 0 bs2 []).map (fun g => G g.2)) : Multiset β)
      = ↑((pureGroups ρ1 0 bs []).map (fun g => G g.2)) := by
  rw [pureGroups_map_eq G ρ2 bs2, pureGroups_map_eq G ρ1 bs, hlen, hlen2,
    hkeys, Finset.image_val_of_injOn hinj, Multiset.map_map]
  refine Multiset.map_congr rfl ?_
  intro r hr
  exact hG r (Finset.mem_def.mpr hr)

/-- Any order-free per-group value has the same multiset over the groups
of a permuted input as over the original input. -/
theorem permuted_groups_map {β : Type} (G : List Region → β)
    (hG : ∀ g1 g2 : List Region, g1.Perm g2 → G g1 = G g2)
    (bs : List Region) (σ : Equiv.Perm (Fin bs.length)) (distThr : ℕ)
    (sizeRatio : ℚ) :
    (↑((groupsOf (List.ofFn (fun i => bs.get (σ i))) distThr sizeRatio).map
        (fun g => G g.2)) : Multiset β)
      = ↑((groupsOf bs distThr sizeRatio).map (fun g => G g.2)) := by
  obtain ⟨hInv1, hlen1, _⟩ :=
    finalParent_spec bs (threshold_area bs sizeRatio) distThr
  obtain ⟨hInv2, hlen2, _⟩ :=
    finalParent_spec (List.ofFn (fun i => bs.get (σ i)))
      (threshold_area bs sizeRatio) distThr
  have hn2 : (List.ofFn (fun i => bs.get (σ i))).length = bs.length :=
    permuted_length bs σ
  have hg1 : groupsOf bs distThr sizeRatio
      = pureGroups (rootD (finalParent bs (threshold_area bs sizeRatio)
          distThr)) 0 bs [] :=
    groupsGo_eq_pure bs _ hInv1 0 []
  have hg2 : groupsOf (List.ofFn (fun i => bs.get (σ i))) distThr sizeRatio
      = pureGroups (rootD (finalParent (List.ofFn (fun i => bs.get (σ i)))
          (threshold_area bs sizeRatio) distThr)) 0
        (List.ofFn (fun i => bs.get (σ i))) [] := by
    have h0 : groupsOf (List.ofFn (fun i => bs.get (σ i))) distThr sizeRatio
        = groupsGo (finalParent (List.ofFn (fun i => bs.get (σ i)))
            (threshold_area (List.ofFn (fun i => bs.get (σ i))) sizeRatio)
            distThr) 0 (List.ofFn (fun i => bs.get (σ i))) [] := rfl
    rw [h0, permuted_threshold bs σ sizeRatio]
    exact groupsGo_eq_pure _ _ hInv2 0 []
  have hρ2lt : ∀ j, j < bs.length →
      rootD (finalParent (List.ofFn (fun i => bs.get (σ i)))
          (threshold_area bs sizeRatio) distThr) j < bs.length := by
    intro j hj
    have hx : j < (finalParent (List.ofFn (fun i => bs.get (σ i)))
        (threshold_area bs sizeRatio) distThr).length := by
      rw [hlen2, hn2]
      exact hj
    have h := rootD_lt_length hInv2 hx
    rwa [hlen2, hn2] at h
  rw [hg1, hg2]
  refine pure_groups_conj G bs.length
      (rootD (finalParent bs (threshold_area bs sizeRatio) distThr))
      (rootD (finalParent (List.ofFn (fun i => bs.get (σ i)))
        (threshold_area bs sizeRatio) distThr))
      (fun r => rootD (finalParent bs (threshold_area bs sizeRatio) distThr)
        (natPermAux bs.length (⇑σ) r))
      bs (List.ofFn (fun i => bs.get (σ i))) rfl hn2 ?_ ?_ ?_
  · exact keys_conj bs.length
      (rootD (finalParent bs (threshold_area bs sizeRatio) distThr))
      (rootD (finalParent (List.ofFn (fun i => bs.get (σ i)))
        (threshold_area bs sizeRatio) distThr))
      (natPermAux bs.length (⇑σ)) (natPermAux bs.length (⇑σ.symm))
      (fun i hi => natPermAux_lt bs.length (⇑σ) hi)
      (fun i hi => natPermAux_lt bs.length (⇑σ.symm) hi)
      (natPermAux_inv2 bs.length σ) hρ2lt (rootD_idem hInv2)
      (permuted_class_iff bs σ (threshold_area bs sizeRatio) distThr)
  · exact keys_conj_injOn bs.length
      (rootD (finalParent bs (threshold_area bs sizeRatio) distThr))
      (rootD (finalParent (List.ofFn (fun i => bs.get (σ i)))
        (threshold_area bs sizeRatio) distThr))
      (natPermAux bs.length (⇑σ)) (rootD_idem hInv2)
      (permuted_class_iff bs σ (threshold_area bs sizeRatio) distThr)
  · intro r hr
    obtain ⟨j, hj, hj2⟩ := Finset.mem_image.mp hr
    have hjn := Finset.mem_range.mp hj
    have hrn : r < bs.length := by
      rw [← hj2]
      exact hρ2lt j hjn
    have hrid : rootD (finalParent (List.ofFn (fun i => bs.get (σ i)))
        (threshold_area bs sizeRatio) distThr) r = r := by
      rw [← hj2]
      exact rootD_idem hInv2 j
    exact hG _ _ (Multiset.coe_eq_coe.mp
      (bucket_conj bs.length
        (rootD (finalParent bs (threshold_area bs sizeRatio) distThr))
        (rootD (finalParent (List.ofFn (fun i => bs.get (σ i)))
          (threshold_area bs sizeRatio) distThr))
        (natPermAux bs.length (⇑σ)) (natPermAux bs.length (⇑σ.symm))
        bs (List.ofFn (fun i => bs.get (σ i))) rfl hn2
        (fun i hi => natPermAux_lt bs.length (⇑σ) hi)
        (fun i hi => natPermAux_lt bs.length (⇑σ.symm) hi)
        (natPermAux_inv2 bs.length σ) (natPermAux_inv bs.length σ)
        (fun j hj => permuted_getD bs σ hj)
        (permuted_class_iff bs σ (threshold_area bs sizeRatio) distThr)
        r hrn hrid))

/-- C7: running the merge on any permutation of the region list yields the
same partition of regions into groups — the same collection of group
member multisets — and hence the same collection of merged boxes with the
same merged-from counts as the original run; the merge is
order-insensitive. -/
theorem merge_order_insensitive (bs : List Region) (distThr : ℕ)
    (sizeRatio : ℚ) (σ : Equiv.Perm (Fin bs.length)) :
    (↑((groupsOf (List.ofFn (fun i => bs.get (σ i))) distThr sizeRatio).map
        (fun g => (↑g.2 : Multiset Region))) : Multiset (Multiset Region))
      = ↑((groupsOf bs distThr sizeRatio).map
          (fun g => (↑g.2 : Multiset Region))) ∧
    (↑(merge_nearby_small_boxes (List.ofFn (fun i => bs.get (σ i))) distThr
          sizeRatio) : Multiset MergedBox)
      = ↑(merge_nearby_small_boxes bs distThr sizeRatio) := by
  constructor
  · exact permuted_groups_map (fun ms => (↑ms : Multiset Region))
      (fun g1 g2 h => Multiset.coe_eq_coe.mpr h) bs σ distThr sizeRatio
  · rw [merge_eq_map, merge_eq_map]
    exact permuted_groups_map mergeGroup (fun g1 g2 h => mergeGroup_perm h)
      bs σ distThr sizeRatio

end SpriteProc
